import Mathlib

/-!
Verification of the MongoDBParser repository (Go).

The Go sources under verification are `parser.go`, `utils.go`, `types.go`
and `executor.go` of package `mongoparser`.  Every definition below is a
shallow embedding of the corresponding Go function, translated statement
by statement; strings are modelled as `List Char` (the scripts handled by
the parser are ASCII, so Go's byte indexing and Lean's character lists
agree), and Go's `(value, error)` returns are modelled with `Except` /
`Option`.

Two modelling conventions, stated once:

* Go's `map[string]interface{}` (the target of `json.Unmarshal` in
  `parseJSONLikeString`) does not retain the textual order of keys, and
  Go's map iteration order is unspecified.  The embedding represents such
  a decoded map canonically as an association list sorted by key (later
  duplicate keys overwrite earlier ones, as in Go).  Any Go behaviour that
  ranges over such a map is modelled as ranging over this canonical list;
  a property that would depend on a *particular* iteration order is
  unspecified in Go, and the canonical list stands in for one arbitrary
  admissible order.

* JSON numbers (Go `float64`) are modelled as rationals (`Rat`), and Go's
  `int` as `Int`.  For the magnitudes appearing in this development the
  float64/int semantics used by the source (`v == float64(int(v))`,
  `strconv.Atoi`, `strconv.ParseFloat` on decimal literals) coincide with
  exact rational arithmetic.
-/

/-- Character class used by the Go scanners: the four whitespace characters
skipped by `removeTrailingCommas` (space, tab, newline, carriage return). -/
def isWs4 (c : Char) : Bool :=
  c = ' ' || c = '\t' || c = '\n' || c = '\r'

/-- Model of Go `unicode.IsSpace` restricted to the ASCII whitespace that can
occur in the scripts handled by the parser. -/
def isGoSpace (c : Char) : Bool :=
  c = ' ' || c = '\t' || c = '\n' || c = '\r' || c = '\x0b' || c = '\x0c'

/-- Model of `strings.TrimSpace` on character lists. -/
def goTrimSpaceL (l : List Char) : List Char :=
  ((l.dropWhile isGoSpace).reverse.dropWhile isGoSpace).reverse

/-- Model of `strings.TrimSpace` on strings. -/
def goTrimSpace (s : String) : String :=
  ⟨goTrimSpaceL s.data⟩

/-- Model of `strings.HasPrefix` (does `l` start with `p`?). -/
def goStartsWith (l p : List Char) : Bool :=
  p.isPrefixOf l

/-- Model of `strings.HasSuffix` (does `l` end with `p`?). -/
def goEndsWith (l p : List Char) : Bool :=
  p.isSuffixOf l

/-- Model of `strings.TrimPrefix`: remove one leading occurrence of `p`. -/
def goTrimPrefixL (l p : List Char) : List Char :=
  if goStartsWith l p then l.drop p.length else l

/-- Model of `strings.TrimSuffix`: remove one trailing occurrence of `p`. -/
def goTrimSuffixL (l p : List Char) : List Char :=
  if goEndsWith l p then l.take (l.length - p.length) else l

/-- Model of `strings.Contains` for a single-character substring. -/
def containsChar (l : List Char) (c : Char) : Bool :=
  l.any (fun x => x = c)

/-- Model of `strings.Index` for a single-character substring: index of the
first occurrence of `c` in `l`, or `none`. -/
def idxOfChar (l : List Char) (c : Char) : Option Nat :=
  l.findIdx? (fun x => x = c)

/-- Model of `strings.Split(s, "\n")` on character lists. -/
def splitLinesL (l : List Char) : List (List Char) :=
  match l with
  | [] => [[]]
  | c :: rest =>
    let tail := splitLinesL rest
    if c = '\n' then [] :: tail
    else
      match tail with
      | [] => [[c]]
      | seg :: segs => (c :: seg) :: segs

/-- Model of `strings.Trim(s, cutset)` for the cutset `"'` used by
`parseDbCreateCollection`: strip leading and trailing quote characters. -/
def goTrimQuotesL (l : List Char) : List Char :=
  let cut : Char → Bool := fun c => c = '\x22' || c = '\x27'
  ((l.dropWhile cut).reverse.dropWhile cut).reverse

/-! ## Decoded JSON values

`GoVal` models the Go `interface{}` trees produced by `json.Unmarshal`:
`null`, booleans, `float64` numbers (as rationals), strings,
`[]interface{}` slices, and `map[string]interface{}` maps (canonical,
key-sorted association lists — see the header comment).  The constructor
`int` models Go `int` values, which appear only as results of
`convertToNumber`, never as decoder output. -/

inductive GoVal where
  | null : GoVal
  | bool : Bool → GoVal
  | float : Rat → GoVal
  | int : Int → GoVal
  | str : String → GoVal
  | arr : List GoVal → GoVal
  | obj : List (String × GoVal) → GoVal

/-- Insert a decoded object field into the canonical (key-sorted) field
list; a duplicate key overwrites the earlier entry, as assignment into a Go
map does. -/
def insField (k : String) (v : GoVal) : List (String × GoVal) → List (String × GoVal)
  | [] => [(k, v)]
  | (k2, v2) :: t =>
    if k = k2 then (k, v) :: t
    else if k < k2 then (k, v) :: (k2, v2) :: t
    else (k2, v2) :: insField k v t

/-- Look a key up in a decoded object's field list (Go `m[key]`). -/
def lookupField (k : String) : List (String × GoVal) → Option GoVal
  | [] => none
  | (k2, v) :: t => if k = k2 then some v else lookupField k t

/-- Decimal digit test used by the number scanner. -/
def isDigitCh (c : Char) : Bool :=
  '0' ≤ c && c ≤ '9'

/-- Numeric value of a list of decimal digits. -/
def digitsToNat (l : List Char) : Nat :=
  l.foldl (fun acc c => acc * 10 + (c.toNat - '0'.toNat)) 0

/-! ## Model of `encoding/json` (strict JSON reader)

`pVal` is a fuel-indexed recursive-descent reader for the strict JSON
grammar accepted by `json.Unmarshal`: it rejects unquoted keys, single
quotes, trailing commas and trailing garbage.  It returns the decoded
value and the unread remainder.  Object fields are accumulated with
`insField`, so every decoded object is in the canonical unordered-map
form. -/

/-- Skip the JSON whitespace characters. -/
def skipWs (l : List Char) : List Char :=
  l.dropWhile isWs4

/-- Read the digit run prefix. -/
def takeDigits (l : List Char) : List Char × List Char :=
  (l.takeWhile isDigitCh, l.dropWhile isDigitCh)

/-- Read the signed digit run of a JSON exponent. -/
def pExpDigits (t : List Char) : Option (Int × List Char) :=
  match t with
  | '+' :: t2 =>
    let (ed, t3) := takeDigits t2
    if ed = [] then none else some ((digitsToNat ed : Int), t3)
  | '-' :: t2 =>
    let (ed, t3) := takeDigits t2
    if ed = [] then none else some ((-(digitsToNat ed : Int) : Int), t3)
  | _ =>
    let (ed, t3) := takeDigits t
    if ed = [] then none else some ((digitsToNat ed : Int), t3)

/-- Read a strict JSON number (RFC 8259: no leading zeros, optional fraction
and exponent) and return its exact rational value. -/
def pNum (l : List Char) : Option (Rat × List Char) :=
  let (neg, l1) :=
    match l with
    | '-' :: t => (true, t)
    | _ => (false, l)
  let intOk : List Char → Bool := fun ds =>
    match ds with
    | [] => false
    | ['0'] => true
    | c :: _ => c ≠ '0'
  let (ip, l2) := takeDigits l1
  if intOk ip then
    let ipv : Rat := (digitsToNat ip : Rat)
    let (fv, l3) :=
      match l2 with
      | '.' :: t =>
        let (fd, t2) := takeDigits t
        if fd = [] then (none, l2)
        else (some ((digitsToNat fd : Rat) / ((10 : Rat) ^ fd.length)), t2)
      | _ => (some 0, l2)
    match fv with
    | none => none
    | some fr =>
      let base : Rat := ipv + fr
      let ev : Option (Int × List Char) :=
        match l3 with
        | 'e' :: t => pExpDigits t
        | 'E' :: t => pExpDigits t
        | _ => some (0, l3)
      match ev with
      | none => none
      | some (e, l5) =>
        let q := base * (10 : Rat) ^ e
        some (if neg then -q else q, l5)
  else none

/-- Read the body of a strict JSON string after the opening quote, handling
the standard escapes; rejects raw control characters, as `encoding/json`
does. -/
def pStrBody (fuel : Nat) (l : List Char) : Option (List Char × List Char) :=
  match fuel, l with
  | 0, _ => none
  | _, [] => none
  | fuel + 1, c :: rest =>
    if c = '\x22' then some ([], rest)
    else if c = '\x5c' then
      match rest with
      | [] => none
      | e :: rest2 =>
        let dec : Option Char :=
          if e = '\x22' then some '\x22'
          else if e = '\x5c' then some '\x5c'
          else if e = '/' then some '/'
          else if e = 'n' then some '\n'
          else if e = 't' then some '\t'
          else if e = 'r' then some '\r'
          else if e = 'b' then some '\x08'
          else if e = 'f' then some '\x0c'
          else none
        match dec with
        | none => none
        | some d =>
          match pStrBody fuel rest2 with
          | none => none
          | some (body, rem) => some (d :: body, rem)
    else if c.toNat < 32 then none
    else
      match pStrBody fuel rest with
      | none => none
      | some (body, rem) => some (c :: body, rem)

mutual

/-- Read one strict JSON value. -/
def pVal (fuel : Nat) (l : List Char) : Option (GoVal × List Char) :=
  match fuel with
  | 0 => none
  | fuel + 1 =>
    match skipWs l with
    | [] => none
    | c :: rest =>
      if c = '\x7b' then
        match skipWs rest with
        | '\x7d' :: rem => some (GoVal.obj [], rem)
        | _ => (do
            let (fs, rem) ← pFields fuel rest []
            pure (GoVal.obj fs, rem))
      else if c = '[' then
        match skipWs rest with
        | ']' :: rem => some (GoVal.arr [], rem)
        | _ => (do
            let (xs, rem) ← pElems fuel rest
            pure (GoVal.arr xs, rem))
      else if c = '\x22' then
        match pStrBody (rest.length + 1) rest with
        | none => none
        | some (body, rem) => some (GoVal.str ⟨body⟩, rem)
      else if goStartsWith (c :: rest) ['t', 'r', 'u', 'e'] then
        some (GoVal.bool true, (c :: rest).drop 4)
      else if goStartsWith (c :: rest) ['f', 'a', 'l', 's', 'e'] then
        some (GoVal.bool false, (c :: rest).drop 5)
      else if goStartsWith (c :: rest) ['n', 'u', 'l', 'l'] then
        some (GoVal.null, (c :: rest).drop 4)
      else
        match pNum (c :: rest) with
        | none => none
        | some (q, rem) => some (GoVal.float q, rem)

/-- Read the members of a strict JSON object (after the opening brace),
accumulating fields into the canonical map form. -/
def pFields (fuel : Nat) (l : List Char) (acc : List (String × GoVal)) :
    Option (List (String × GoVal) × List Char) :=
  match fuel with
  | 0 => none
  | fuel + 1 =>
    match skipWs l with
    | '\x22' :: rest =>
      match pStrBody (rest.length + 1) rest with
      | none => none
      | some (kbody, rem) =>
        match skipWs rem with
        | ':' :: rem2 =>
          match pVal fuel rem2 with
          | none => none
          | some (v, rem3) =>
            let acc2 := insField ⟨kbody⟩ v acc
            match skipWs rem3 with
            | ',' :: rem4 => pFields fuel rem4 acc2
            | '\x7d' :: rem4 => some (acc2, rem4)
            | _ => none
        | _ => none
    | _ => none

/-- Read the elements of a strict JSON array (after the opening bracket). -/
def pElems (fuel : Nat) (l : List Char) : Option (List GoVal × List Char) :=
  match fuel with
  | 0 => none
  | fuel + 1 =>
    match pVal fuel l with
    | none => none
    | some (v, rem) =>
      match skipWs rem with
      | ',' :: rem2 => (do
          let (xs, rem3) ← pElems fuel rem2
          pure (v :: xs, rem3))
      | ']' :: rem2 => some ([v], rem2)
      | _ => none

end

/-- Model of `json.Unmarshal(data, &v)` for `v interface{}`: decode one
value and demand that only whitespace follows. -/
def jsonUnmarshal (s : String) : Option GoVal :=
  match pVal (s.data.length + 1) s.data with
  | none => none
  | some (v, rem) => if skipWs rem = [] then some v else none

/-- Model of `json.Unmarshal(data, &m)` for `m map[string]interface{}`
(the `bson.M` targets in the source): additionally require the decoded
value to be an object ( `null` leaves the map `nil`, also a success). -/
def jsonUnmarshalMap (s : String) : Option GoVal :=
  match jsonUnmarshal s with
  | some (GoVal.obj fs) => some (GoVal.obj fs)
  | some GoVal.null => some (GoVal.obj [])
  | _ => none

/-! ## Models of `utils.go` -/

/-- Helper from `utils.go`: `isAlphaStart` (letters, underscore, dollar). -/
def isAlphaStart (c : Char) : Bool :=
  ('a' ≤ c && c ≤ 'z') || ('A' ≤ c && c ≤ 'Z') || c = '_' || c = '$'

/-- Helper from `utils.go`: `isAlphaNum` (alpha-start characters or digits). -/
def isAlphaNum (c : Char) : Bool :=
  isAlphaStart c || ('0' ≤ c && c ≤ '9')

/-- First step of `normalizeJavaScriptObject`:
`strings.ReplaceAll(input, "'", "\"")`. -/
def replaceSingleQuotes (l : List Char) : List Char :=
  l.map (fun c => if c = '\x27' then '\x22' else c)

/-- Lookahead used by `removeTrailingCommas`: is the next non-whitespace
character a closing brace or bracket? (At end of input the comma is kept,
as in the Go loop where `j` reaches `len(input)`.) -/
def nextIsClose (l : List Char) : Bool :=
  match l.dropWhile isWs4 with
  | [] => false
  | c :: _ => c = '\x7d' || c = ']'

/-- Model of `removeTrailingCommas` (utils.go).  State `q` is the active
quote delimiter (`none` = outside quotes); both quote characters toggle it,
exactly as the Go `inQuotes`/`quoteChar` pair does.  A comma outside quotes
whose following non-whitespace character is `}` or `]` is dropped; every
other character is emitted unchanged. -/
def rtcL (q : Option Char) : List Char → List Char
  | [] => []
  | c :: rest =>
    if c = '\x22' || c = '\x27' then
      match q with
      | none => c :: rtcL (some c) rest
      | some qc => if c = qc then c :: rtcL none rest else c :: rtcL (some qc) rest
    else if c = ',' then
      match q with
      | some qc => c :: rtcL (some qc) rest
      | none => if nextIsClose rest then rtcL none rest else c :: rtcL none rest
    else c :: rtcL q rest

/-- Model of `removeTrailingCommas` on strings. -/
def removeTrailingCommas (s : String) : String :=
  ⟨rtcL none s.data⟩

/-- Identifier-run characters consumed by `addQuotesToKeys` (the Go loop
condition `isAlphaNum(...) || input[i] == '_'`, where `_` is already in
`isAlphaNum`). -/
def isIdentCh (c : Char) : Bool :=
  isAlphaNum c

/-- Space or tab, the whitespace skipped between a key and its colon in
`addQuotesToKeys`. -/
def isSpaceTab (c : Char) : Bool :=
  c = ' ' || c = '\t'

/-- Scanner state of `addQuotesToKeys`, read off the Go index loop:
`out` = outside quotes at the top of the loop; `inq` = inside a
double-quoted literal; `key acc` = currently consuming an identifier run
(accumulated in reverse in `acc`); `ws acc` = identifier run finished,
consuming the spaces/tabs before a possible colon (the Go loop advances
`i` past them without re-emitting them). -/
inductive AqkSt where
  | out : AqkSt
  | inq : AqkSt
  | key : List Char → AqkSt
  | ws : List Char → AqkSt
deriving DecidableEq

/-- Model of `addQuotesToKeys` (utils.go) as a character-at-a-time state
machine equivalent to the Go index loop.  Outside double quotes, a maximal
identifier run followed (after spaces/tabs, which are consumed without
being re-emitted) by a colon is wrapped in double quotes; any other
identifier run is re-emitted bare; only the double-quote character toggles
the quote state.  In the `key`/`ws` states a non-colon terminator is
re-processed exactly as the Go loop re-processes `input[i]` at the top of
the loop (a quote toggles, an alpha-start character begins a new run). -/
def aqkL : AqkSt → List Char → List Char
  | .out, [] => []
  | .inq, [] => []
  | .key acc, [] => acc.reverse
  | .ws acc, [] => acc.reverse
  | .out, c :: rest =>
    if c = '\x22' then c :: aqkL .inq rest
    else if isAlphaStart c then aqkL (.key [c]) rest
    else c :: aqkL .out rest
  | .inq, c :: rest =>
    if c = '\x22' then c :: aqkL .out rest
    else c :: aqkL .inq rest
  | .key acc, c :: rest =>
    if isIdentCh c then aqkL (.key (c :: acc)) rest
    else if isSpaceTab c then aqkL (.ws acc) rest
    else if c = ':' then ('\x22' :: acc.reverse ++ ['\x22']) ++ c :: aqkL .out rest
    else if c = '\x22' then acc.reverse ++ c :: aqkL .inq rest
    else acc.reverse ++ c :: aqkL .out rest
  | .ws acc, c :: rest =>
    if isSpaceTab c then aqkL (.ws acc) rest
    else if c = ':' then ('\x22' :: acc.reverse ++ ['\x22']) ++ c :: aqkL .out rest
    else if c = '\x22' then acc.reverse ++ c :: aqkL .inq rest
    else if isAlphaStart c then acc.reverse ++ aqkL (.key [c]) rest
    else acc.reverse ++ c :: aqkL .out rest

/-- Model of `addQuotesToKeys` on strings. -/
def addQuotesToKeys (s : String) : String :=
  ⟨aqkL AqkSt.out s.data⟩

/-- Model of `normalizeJavaScriptObject` (utils.go): unify quotes, drop
trailing commas, then quote unquoted keys when the text looks like an
object (contains `{` and `:`). -/
def normalizeJavaScriptObject (input : String) : String :=
  let i1 : List Char := replaceSingleQuotes input.data
  let i2 : List Char := rtcL none i1
  if containsChar i2 '\x7b' && containsChar i2 ':' then ⟨aqkL AqkSt.out i2⟩ else ⟨i2⟩

/-- Model of `parseJSONLikeString` (utils.go) at its only target type in the
source, `map[string]interface{}` / `bson.M`: trim, reject empty input,
normalize, then strict-JSON-decode into a map. -/
def parseJSONLikeMap (input : String) : Except String GoVal :=
  let t := goTrimSpace input
  if t = "" then Except.error "empty input"
  else
    match jsonUnmarshalMap (normalizeJavaScriptObject t) with
    | some v => Except.ok v
    | none => Except.error ("cannot unmarshal into map: " ++ normalizeJavaScriptObject t)

/-- Scanner state shared by `splitArguments` and `splitIntoStatements`: the
active quote delimiter (`none` = outside quotes) and the `{`/`}` nesting
counter (a Go `int`, so it can go negative). -/
structure ScanSt where
  q : Option Char
  depth : Int
deriving DecidableEq

/-- One step of the quote/brace scanner used by `splitArguments` and
`splitIntoStatements`: both quote characters toggle the quote state against
the remembered delimiter; braces count only outside quotes.  (Square
brackets are not tracked by the Go code.) -/
def scanStep (st : ScanSt) (c : Char) : ScanSt :=
  if c = '\x22' || c = '\x27' then
    match st.q with
    | none => ⟨some c, st.depth⟩
    | some qc => if c = qc then ⟨none, st.depth⟩ else st
  else if c = '\x7b' then
    match st.q with
    | none => ⟨none, st.depth + 1⟩
    | some _ => st
  else if c = '\x7d' then
    match st.q with
    | none => ⟨none, st.depth - 1⟩
    | some _ => st
  else st

/-- Model of `splitArguments` (utils.go): the accumulator `cur` is the Go
`current` builder; a comma outside quotes at brace depth 0 ends the current
argument (trimmed); at the end the final argument is appended only when the
builder is non-empty. -/
def splitArgsL (cur : List Char) (st : ScanSt) : List Char → List (List Char)
  | [] => if cur = [] then [] else [goTrimSpaceL cur]
  | c :: rest =>
    if c = ',' && st.q = none && st.depth = 0 then
      goTrimSpaceL cur :: splitArgsL [] st rest
    else
      splitArgsL (cur ++ [c]) (scanStep st c) rest

/-- Model of `splitArguments` on strings. -/
def splitArguments (s : String) : List String :=
  (splitArgsL [] ⟨none, 0⟩ s.data).map (fun l => (⟨l⟩ : String))

/-! ## Models of `parser.go` -/

/-- Model of `strconv.Atoi`: optional sign, then one or more decimal
digits and nothing else. -/
def goAtoi (s : String) : Option Int :=
  let (sgn, ds) :=
    match s.data with
    | '+' :: t => ((1 : Int), t)
    | '-' :: t => ((-1 : Int), t)
    | l => ((1 : Int), l)
  if ds ≠ [] && ds.all isDigitCh then some (sgn * (digitsToNat ds : Int)) else none

/-- Model of `strconv.ParseFloat` on the decimal forms relevant here:
optional sign, digits with an optional dot (digits required on at least one
side), optional exponent.  (Hex floats and inf/nan names are outside the
inputs this parser can produce.) -/
def goParseFloat (s : String) : Option Rat :=
  let (sgn, l1) :=
    match s.data with
    | '+' :: t => ((1 : Rat), t)
    | '-' :: t => ((-1 : Rat), t)
    | l => ((1 : Rat), l)
  let (ip, l2) := takeDigits l1
  let (fp, l3) :=
    match l2 with
    | '.' :: t =>
      let (fd, t2) := takeDigits t
      (some fd, t2)
    | _ => (none, l2)
  let fd := fp.getD []
  if ip = [] && fd = [] then none
  else
    let mant : Rat := (digitsToNat ip : Rat) + (digitsToNat fd : Rat) / ((10 : Rat) ^ fd.length)
    match l3 with
    | [] => some (sgn * mant)
    | 'e' :: t =>
      match pExpDigits t with
      | some (e, []) => some (sgn * mant * (10 : Rat) ^ e)
      | _ => none
    | 'E' :: t =>
      match pExpDigits t with
      | some (e, []) => some (sgn * mant * (10 : Rat) ^ e)
      | _ => none
    | _ => none

/-- Model of `convertToNumber` (parser.go).  A string containing a dot is
tried as a float only; a dotless string as an integer only.  A `float64`
equal to its `int` truncation (here: a rational with denominator 1) becomes
a Go `int`; other floats and existing ints pass through; everything else is
the error `"not a number"`. -/
def convertToNumber (v : GoVal) : Except String GoVal :=
  match v with
  | GoVal.str s =>
    if containsChar s.data '.' then
      match goParseFloat s with
      | some f => Except.ok (GoVal.float f)
      | none => Except.error "not a number"
    else
      match goAtoi s with
      | some i => Except.ok (GoVal.int i)
      | none => Except.error "not a number"
  | GoVal.float q =>
    if q.den = 1 then Except.ok (GoVal.int q.num) else Except.ok (GoVal.float q)
  | GoVal.int i => Except.ok (GoVal.int i)
  | _ => Except.error "not a number"

/-- Model of the `options.IndexOptions` fields set by `parseCreateIndex`
(`SetUnique` / `SetName`). -/
structure IndexOpts where
  unique : Option Bool
  name : Option String
deriving DecidableEq

/-- Model of the `MongoOperation` struct (types.go).  `arguments` is the
`Arguments []bson.M` slice; `indexSpec` the `IndexSpec` field as the
`bson.D` built by `parseCreateIndex` (an ordered key/value list);
`validator` the `Validator` field. -/
structure MongoOperation where
  type : String
  collection : String
  operation : String
  arguments : List GoVal
  indexSpec : Option (List (String × GoVal))
  indexOptions : Option IndexOpts
  validator : Option GoVal

/-- Fresh operation value with only the type/collection/operation fields
set, as at the top of each `parse*` function. -/
def baseOp (ty coll oper : String) : MongoOperation :=
  ⟨ty, coll, oper, [], none, none, none⟩

/-- Field list of a decoded object (empty for non-objects). -/
def objFieldsOf (v : GoVal) : List (String × GoVal) :=
  match v with
  | GoVal.obj fs => fs
  | _ => []

/-- Option extraction in `parseCreateIndex`: `unique` must be a bool and
`name` a string to be taken up; anything else is ignored. -/
def extractIndexOpts (fs : List (String × GoVal)) : IndexOpts :=
  let u :=
    match lookupField "unique" fs with
    | some (GoVal.bool b) => some b
    | _ => none
  let n :=
    match lookupField "name" fs with
    | some (GoVal.str s) => some s
    | _ => none
  ⟨u, n⟩

/-- Model of `parseCreateIndex` (parser.go).  The decoded spec map is
ranged over to build the `bson.D`; since the Go map is unordered, the
canonical (key-sorted) field list stands in for the unspecified iteration
order (see header).  Values accepted by `convertToNumber` are replaced by
their numeric form; other values are kept.  A second argument that decodes
is distilled into the index options; a failing second argument is only
logged. -/
def parseCreateIndex (collection argsString : String) : Except String MongoOperation :=
  let op := baseOp "createIndex" collection "createIndex"
  match splitArguments argsString with
  | [] => Except.ok op
  | a0 :: rest =>
    match parseJSONLikeMap (goTrimSpace a0) with
    | Except.error e => Except.error ("failed to parse index specification: " ++ e)
    | Except.ok specv =>
      let ispec := (objFieldsOf specv).map (fun kv =>
        match convertToNumber kv.2 with
        | Except.ok n => (kv.1, n)
        | Except.error _ => kv)
      let op2 := { op with indexSpec := some ispec }
      match rest with
      | [] => Except.ok op2
      | a1 :: _ =>
        match parseJSONLikeMap (goTrimSpace a1) with
        | Except.error _ => Except.ok op2
        | Except.ok optv =>
          Except.ok { op2 with indexOptions := some (extractIndexOpts (objFieldsOf optv)) }

/-- Model of `parseInsert` (parser.go): the whole raw argument text is
decoded as one `bson.M` document (so an array literal is a decode error),
and becomes the single element of `arguments`. -/
def parseInsert (collection operation argsString : String) : Except String MongoOperation :=
  match parseJSONLikeMap argsString with
  | Except.error e => Except.error ("failed to parse insert document: " ++ e)
  | Except.ok document =>
    Except.ok { baseOp "insert" collection operation with arguments := [document] }

/-- Model of `parseUpdate` (parser.go): fewer than two split arguments is
an arity error; otherwise the first two decode into filter and update. -/
def parseUpdate (collection operation argsString : String) : Except String MongoOperation :=
  match splitArguments argsString with
  | a0 :: a1 :: _ =>
    (match parseJSONLikeMap a0 with
     | Except.error e => Except.error ("failed to parse update filter: " ++ e)
     | Except.ok filter =>
       match parseJSONLikeMap a1 with
       | Except.error e => Except.error ("failed to parse update document: " ++ e)
       | Except.ok upd =>
         Except.ok { baseOp "update" collection operation with arguments := [filter, upd] })
  | _ => Except.error "update operation requires at least 2 arguments"

/-- Model of `parseDelete` (parser.go): the whole raw argument text decodes
into the filter. -/
def parseDelete (collection operation argsString : String) : Except String MongoOperation :=
  match parseJSONLikeMap argsString with
  | Except.error e => Except.error ("failed to parse delete filter: " ++ e)
  | Except.ok filter =>
    Except.ok { baseOp "delete" collection operation with arguments := [filter] }

/-- Accumulated segmenter state of `splitIntoStatements`: the pending
statement text and the cumulative quote/brace scanner state, both carried
across line boundaries. -/
structure SegSt where
  buf : List Char
  st : ScanSt
deriving DecidableEq

/-- One line of the `splitIntoStatements` loop: trim, skip blank and
comment lines, append to the pending buffer (space-separated), scan the
line's characters, and emit the buffer when the line ends in `;` with
balanced braces outside quotes.  The scanner state persists even across an
emitted statement, as in the Go loop. -/
def segStep (acc : SegSt × List (List Char)) (rawLine : List Char) : SegSt × List (List Char) :=
  let (s, out) := acc
  let line := goTrimSpaceL rawLine
  if line = [] || goStartsWith line ['/', '/'] then (s, out)
  else
    let buf2 := if s.buf = [] then line else s.buf ++ ' ' :: line
    let st2 := line.foldl scanStep s.st
    if goEndsWith line [';'] && st2.depth = 0 && st2.q = none then
      (⟨[], st2⟩, out ++ [buf2])
    else (⟨buf2, st2⟩, out)

/-- Model of `splitIntoStatements` (parser.go): fold `segStep` over the
lines and flush a non-empty final buffer as a last statement. -/
def splitIntoStatements (js : String) : List String :=
  let (fin, out) := (splitLinesL js.data).foldl segStep (⟨[], ⟨none, 0⟩⟩, [])
  let out2 := if fin.buf = [] then out else out ++ [fin.buf]
  out2.map (fun l => (⟨l⟩ : String))

/-- Matching-parenthesis search of `parseMongoStatement`: a plain
open/close counter (not quote-aware), returning the index of the
parenthesis that closes the count. -/
def matchParen (l : List Char) (depth : Int) (i : Nat) : Option Nat :=
  match l with
  | [] => none
  | c :: rest =>
    if c = '(' then matchParen rest (depth + 1) (i + 1)
    else if c = ')' then
      if depth - 1 = 0 then some i else matchParen rest (depth - 1) (i + 1)
    else matchParen rest depth (i + 1)

/-- Model of `strings.LastIndex` for a single character. -/
def lastIdxOfChar (l : List Char) (c : Char) : Option Nat :=
  match idxOfChar l.reverse c with
  | none => none
  | some ri => some (l.length - 1 - ri)

/-- Call-shape extraction of `parseMongoStatement` (parser.go lines
344-391): locate the two delimiter dots, the opening parenthesis and its
matching close, and return (collection, method, raw argument text). -/
def extractCall (statement : List Char) : Except String (String × String × String) :=
  if !goStartsWith statement ['d', 'b', '.'] then
    Except.error "invalid MongoDB operation format"
  else
    match idxOfChar statement '.' with
    | none => Except.error "invalid MongoDB operation format"
    | some firstDot =>
      if firstDot ≠ 2 then Except.error "invalid MongoDB operation format"
      else
        match idxOfChar (statement.drop (firstDot + 1)) '.' with
        | none => Except.error "invalid MongoDB operation format"
        | some d2 =>
          let collection := (statement.drop (firstDot + 1)).take d2
          let operationPart := statement.drop (firstDot + 1 + d2 + 1)
          match idxOfChar operationPart '(' with
          | none => Except.error "no opening parenthesis found"
          | some parenIndex =>
            let operation := operationPart.take parenIndex
            match matchParen (operationPart.drop parenIndex) 0 0 with
            | none => Except.error "no matching closing parenthesis found"
            | some rel =>
              let argsString := (operationPart.drop (parenIndex + 1)).take (rel - 1)
              Except.ok (⟨collection⟩, ⟨operation⟩, ⟨argsString⟩)

/-- Model of `parseDbCreateCollection` (parser.go): arguments between the
first `(` and the last `)`; the quote-stripped first argument is the
collection name; a decodable second argument may contribute a `validator`
sub-object. -/
def parseDbCreateCollection (statement : String) : Except String MongoOperation :=
  let l := statement.data
  match idxOfChar l '(', lastIdxOfChar l ')' with
  | some ps, some pe =>
    let argsString : List Char := (l.drop (ps + 1)).take (pe - (ps + 1))
    match splitArguments ⟨argsString⟩ with
    | [] => Except.error "createCollection requires collection name"
    | a0 :: rest =>
      let collectionName : String := ⟨goTrimQuotesL a0.data⟩
      let op := baseOp "createCollection" collectionName "createCollection"
      match rest with
      | [] => Except.ok op
      | a1 :: _ =>
        match parseJSONLikeMap a1 with
        | Except.error _ => Except.ok op
        | Except.ok optv =>
          match lookupField "validator" (objFieldsOf optv) with
          | some (GoVal.obj vfs) => Except.ok { op with validator := some (GoVal.obj vfs) }
          | _ => Except.ok op
  | _, _ => Except.error "invalid createCollection syntax"

/-- Model of `parseMongoStatement` (parser.go): trim and drop the trailing
semicolon, special-case `db.createCollection(`, otherwise extract the call
shape and dispatch on the method name.  An unrecognized method is the
logged non-error `(nil, nil)`, modelled as `ok none`. -/
def parseMongoStatement (statement0 : String) : Except String (Option MongoOperation) :=
  let statement : List Char := goTrimSuffixL (goTrimSpaceL statement0.data) [';']
  if goStartsWith statement "db.createCollection(".data then
    (parseDbCreateCollection ⟨statement⟩).map some
  else
    match extractCall statement with
    | Except.error e => Except.error e
    | Except.ok (collection, operation, argsString) =>
      if operation = "createIndex" then
        (parseCreateIndex collection argsString).map some
      else if operation = "insertOne" || operation = "insertMany" then
        (parseInsert collection operation argsString).map some
      else if operation = "updateOne" || operation = "updateMany" then
        (parseUpdate collection operation argsString).map some
      else if operation = "deleteOne" || operation = "deleteMany" then
        (parseDelete collection operation argsString).map some
      else Except.ok none

/-- Contribution of one segmented statement to the operation list in the
`parseJavaScriptOperations` loop: blank and comment statements are skipped,
non-`db.`/paren-free statements are skipped, a statement whose parse fails
is logged and skipped, an unrecognized method contributes nothing, and a
parsed operation is appended. -/
def statementOps (statement : String) : List MongoOperation :=
  let s := goTrimSpace statement
  if s.data = [] || goStartsWith s.data ['/', '/'] then []
  else if goStartsWith s.data ['d', 'b', '.'] && containsChar s.data '(' then
    match parseMongoStatement s with
    | Except.ok (some op) => [op]
    | _ => []
  else []

/-- Model of `parseJavaScriptOperations` (parser.go): segment the script
and concatenate each statement's contribution, in source order.  Note the
Go function returns a `nil` error on every path; parse failures of single
statements are logged inside the loop and skipped. -/
def parseJavaScriptOperations (js : String) : List MongoOperation :=
  ((splitIntoStatements js).map statementOps).flatten

/-- Model of the `ScriptMetadata` struct (types.go); `errMsg` is the
`Error` field.  `executedAt` carries the raw RFC3339 text of
`executed_at`; its inner format is not further modelled, as no claim
inspects it. -/
structure ScriptMetadata where
  name : String
  description : String
  version : String
  author : String
  dependencies : List String
  executedAt : String
  status : String
  errMsg : String
deriving DecidableEq

/-- Comment-line collection loop of `ParseMetadata` (parser.go): lines
after a `// METADATA:` marker that still look like comments contribute
their trimmed bodies; the first non-comment line after the marker breaks
the loop. -/
def collectMeta (inM : Bool) : List (List Char) → List (List Char)
  | [] => []
  | line :: rest =>
    let t := goTrimSpaceL line
    if goStartsWith t "// METADATA:".data then collectMeta true rest
    else if inM then
      if goStartsWith t ['/', '/'] then
        let m := goTrimSpaceL (goTrimPrefixL t ['/', '/'])
        if m = [] then collectMeta true rest else m :: collectMeta true rest
      else []
    else collectMeta false rest

/-- Decode a string-typed metadata field as `json.Unmarshal` would: absent
or `null` leaves the zero value, a string is taken, any other type is an
unmarshal error. -/
def getStrField (fs : List (String × GoVal)) (k : String) : Option String :=
  match lookupField k fs with
  | none => some ""
  | some (GoVal.str s) => some s
  | some GoVal.null => some ""
  | some _ => none

/-- Decode the `dependencies` field (`[]string`): absent or `null` gives
the empty slice, an array of strings decodes elementwise, anything else is
an unmarshal error. -/
def getDepsField (fs : List (String × GoVal)) : Option (List String) :=
  match lookupField "dependencies" fs with
  | none => some []
  | some GoVal.null => some []
  | some (GoVal.arr xs) =>
    xs.foldr
      (fun x acc =>
        match x, acc with
        | GoVal.str s, some t => some (s :: t)
        | _, _ => none)
      (some [])
  | some _ => none

/-- Model of `json.Unmarshal(jsonStr, &metadata)` for the `ScriptMetadata`
struct: the payload must be an object (or `null`, a no-op success); known
fields must have the right types; unknown fields are ignored. -/
def decodeScriptMetadata (s : String) : Option ScriptMetadata :=
  match jsonUnmarshal s with
  | some GoVal.null => some ⟨"", "", "", "", [], "", "", ""⟩
  | some (GoVal.obj fs) =>
    (match getStrField fs "name", getStrField fs "description",
           getStrField fs "version", getStrField fs "author",
           getDepsField fs, getStrField fs "executed_at",
           getStrField fs "status", getStrField fs "error" with
     | some n, some d, some v, some a, some dep, some ex, some st, some er =>
       some ⟨n, d, v, a, dep, ex, st, er⟩
     | _, _, _, _, _, _, _, _ => none)
  | _ => none

/-- Model of `ParseMetadata` (parser.go): collect the commented metadata
lines; with none collected the result is `nil`; otherwise the joined text
is JSON-decoded, a failure being logged and returned as `nil`. -/
def parseMetadata (content : String) : Option ScriptMetadata :=
  let mls := collectMeta false (splitLinesL content.data)
  if mls = [] then none
  else decodeScriptMetadata ⟨mls.flatten⟩

/-! ## Specification-side definitions

The definitions in this section are written from the specification's own
words (scan positions, split conditions, grammar of already-strict JSON)
and are compared against the source-derived definitions above by the
theorems below. -/

/-- Quote-literal tracking of the specification's Scanner: the two quote
characters toggle an active-delimiter state; nothing else changes it. -/
def qStep (q : Option Char) (c : Char) : Option Char :=
  if c = '\x22' || c = '\x27' then
    match q with
    | none => some c
    | some qc => if c = qc then none else some qc
  else q

/-- Specification reading of trailing-comma removal: every character is
kept verbatim and in order, except a comma that lies outside quoted
literals and whose next non-whitespace character is a closing `}` or `]`,
which is dropped. -/
def rtcSpec (q : Option Char) : List Char → List Char
  | [] => []
  | c :: rest =>
    (if c = ',' && q = none && nextIsClose rest then [] else [c]) ++ rtcSpec (qStep q c) rest

/-- Raw top-level segmentation of an argument string: a comma outside
quotes at brace depth 0 is a split point; every other character belongs to
the current segment. -/
def segSpec (st : ScanSt) : List Char → List (List Char)
  | [] => [[]]
  | c :: rest =>
    if c = ',' && st.q = none && st.depth = 0 then [] :: segSpec st rest
    else
      match segSpec (scanStep st c) rest with
      | [] => [[c]]
      | seg :: segs => (c :: seg) :: segs

/-- Finishing rule of the argument splitter: all but the last segment are
emitted trimmed; the last is emitted (trimmed) only when non-empty. -/
def finishSegs : List (List Char) → List (List Char)
  | [] => []
  | [last] => if last = [] then [] else [goTrimSpaceL last]
  | seg :: rest => goTrimSpaceL seg :: finishSegs rest

/-- Specification reading of `splitArguments`: split at the qualifying
commas, trim, and drop empty trailing content. -/
def splitArgsSpec (s : String) : List String :=
  (finishSegs (segSpec ⟨none, 0⟩ s.data)).map (fun l => (⟨l⟩ : String))

/-- The segmenter run of a whole script: final state and emitted
statements. -/
def segRun (js : String) : SegSt × List (List Char) :=
  (splitLinesL js.data).foldl segStep (⟨[], ⟨none, 0⟩⟩, [])

/-- A script is segmentation-clean when processing it returns the
segmenter to its initial state: empty pending buffer, zero brace depth, no
open quote.  Any script whose statements are all complete (terminated by
`;` at depth 0 outside quotes) is clean. -/
def cleanSeg (js : String) : Prop :=
  (segRun js).1 = ⟨[], ⟨none, 0⟩⟩

instance (js : String) : Decidable (cleanSeg js) := by
  unfold cleanSeg
  infer_instance

/-! ### Grammar of already-strict JSON literals (for the idempotence claim)

`JVal` is a concrete-syntax grammar of strict JSON text with explicit
whitespace: `jarrCons wb v wa t` renders as `[` `wb` `v` `wa` followed by
the tail `t` (`,` more items or `]`), and similarly for objects, whose
members render as `wk "k" wc : wv v wa`.  `renderV` maps a tree to its
text; every strict JSON literal without escape sequences is the render of
some tree.  `wfV` states the side conditions of the idempotence theorem:
whitespace fields hold only whitespace, string bodies contain no quote or
backslash characters, numbers are plain decimal (no exponent), and a bare
word (`true`/`false`/`null`) is not followed immediately by a space or
tab. -/

mutual

inductive JVal where
  | jnull : JVal
  | jtrue : JVal
  | jfalse : JVal
  | jnum : List Char → JVal
  | jstr : List Char → JVal
  | jarrNil : List Char → JVal
  | jarrCons : List Char → JVal → List Char → JATail → JVal
  | jobjNil : List Char → JVal
  | jobjCons : List Char → List Char → List Char → List Char → JVal → List Char → JOTail → JVal

inductive JATail where
  | adone : JATail
  | amore : List Char → JVal → List Char → JATail → JATail

inductive JOTail where
  | odone : JOTail
  | omore : List Char → List Char → List Char → List Char → JVal → List Char → JOTail → JOTail

end

mutual

def renderV : JVal → List Char
  | .jnull => ['n', 'u', 'l', 'l']
  | .jtrue => ['t', 'r', 'u', 'e']
  | .jfalse => ['f', 'a', 'l', 's', 'e']
  | .jnum s => s
  | .jstr s => '\x22' :: s ++ ['\x22']
  | .jarrNil ws => '[' :: ws ++ [']']
  | .jarrCons wb v wa t => '[' :: wb ++ renderV v ++ wa ++ renderA t
  | .jobjNil ws => '\x7b' :: ws ++ ['\x7d']
  | .jobjCons wk k wc wv v wa t =>
    '\x7b' :: wk ++ '\x22' :: k ++ '\x22' :: wc ++ ':' :: wv ++ renderV v ++ wa ++ renderO t

def renderA : JATail → List Char
  | .adone => [']']
  | .amore wb v wa t => ',' :: wb ++ renderV v ++ wa ++ renderA t

def renderO : JOTail → List Char
  | .odone => ['\x7d']
  | .omore wk k wc wv v wa t =>
    ',' :: wk ++ '\x22' :: k ++ '\x22' :: wc ++ ':' :: wv ++ renderV v ++ wa ++ renderO t

end

/-- Whitespace-only layout field. -/
def wsOk (l : List Char) : Bool :=
  l.all isWs4

/-- String-body characters compatible with the quote scanners: no double
quote (which would end the literal early), no backslash (no escapes in the
dialect), no single quote (rewritten by quote unification). -/
def strContentOk (l : List Char) : Bool :=
  l.all (fun c => c ≠ '\x22' && c ≠ '\x5c' && c ≠ '\x27')

/-- Characters a plain decimal number may contain. -/
def numChOk (c : Char) : Bool :=
  isDigitCh c || c = '-' || c = '.'

/-- Plain decimal number text (no exponent): starts with a digit or a
minus, and contains only digits, minus signs and dots.  This is a superset
of the strict-JSON decimal numbers (which is all the identity theorem
needs: a larger input set makes the theorem stronger). -/
def numOk (s : List Char) : Bool :=
  match s with
  | [] => false
  | c :: _ => (isDigitCh c || c = '-') && s.all numChOk

/-- Characters through which `removeTrailingCommas` passes verbatim with
unchanged state: anything that is not a quote and not a comma. -/
def inertRtc (c : Char) : Bool :=
  !(c = '\x22' || c = '\x27' || c = ',')

/-- Characters through which `addQuotesToKeys` passes verbatim in the
outside-quotes state: anything that is not a double quote and cannot start
an identifier run. -/
def inertAqk (c : Char) : Bool :=
  !(c = '\x22') && !isAlphaStart c

/-- Continuation text that terminates an identifier run without quoting it
and without consuming anything: empty, or headed by a character that is
not part of an identifier, not a space or tab, and not a colon. -/
def aqkSafeRest (rest : List Char) : Bool :=
  match rest with
  | [] => true
  | c :: _ => !isIdentCh c && !isSpaceTab c && !(c = ':')

/-- Is this value a bare word (rendered as an identifier run)? -/
def bareV : JVal → Bool
  | .jnull => true
  | .jtrue => true
  | .jfalse => true
  | _ => false

/-- The character following a bare word must not be a space or tab (those
are silently consumed by the key-quoting pass). -/
def headNotSpTab (l : List Char) : Bool :=
  match l with
  | [] => true
  | c :: _ => !isSpaceTab c

mutual

def wfV : JVal → Bool
  | .jnull => true
  | .jtrue => true
  | .jfalse => true
  | .jnum s => numOk s
  | .jstr s => strContentOk s
  | .jarrNil ws => wsOk ws
  | .jarrCons wb v wa t =>
    wsOk wb && wfV v && wsOk wa && wfA t && (!bareV v || headNotSpTab wa)
  | .jobjNil ws => wsOk ws
  | .jobjCons wk k wc wv v wa t =>
    wsOk wk && strContentOk k && wsOk wc && wsOk wv && wfV v && wsOk wa && wfO t &&
      (!bareV v || headNotSpTab wa)

def wfA : JATail → Bool
  | .adone => true
  | .amore wb v wa t =>
    wsOk wb && wfV v && wsOk wa && wfA t && (!bareV v || headNotSpTab wa)

def wfO : JOTail → Bool
  | .odone => true
  | .omore wk k wc wv v wa t =>
    wsOk wk && strContentOk k && wsOk wc && wsOk wv && wfV v && wsOk wa && wfO t &&
      (!bareV v || headNotSpTab wa)

end

/-! ## Claim theorems -/

/-- C1.  The operation builder cannot preserve the textual field order of a
`createIndex` spec: `parseJSONLikeString` decodes the literal into a Go map
(order-free; modelled canonically), so the two textual orders
`{b: 1, a: -1}` and `{a: -1, b: 1}` produce identical decoded maps and
identical operations, whose `index_spec` here lists `a` before `b` — not
the claimed source order `[(b,1),(a,-1)]`.  This contradicts the code's own
comment ("Convert map to bson.D to preserve field order for indexes"):
the claim states the intent, and ranging over the unordered map is the
slip, so the claim is a code bug, not a wrong claim. -/
theorem createIndex_spec_order_lost :
    parseJSONLikeMap "\x7bb: 1, a: -1\x7d" = parseJSONLikeMap "\x7ba: -1, b: 1\x7d" ∧
    parseCreateIndex "users" "\x7bb: 1, a: -1\x7d" = parseCreateIndex "users" "\x7ba: -1, b: 1\x7d" ∧
    parseCreateIndex "users" "\x7bb: 1, a: -1\x7d" =
      Except.ok
        { type := "createIndex", collection := "users", operation := "createIndex",
          arguments := [], indexSpec := some [("a", GoVal.int (-1)), ("b", GoVal.int 1)],
          indexOptions := none, validator := none } ∧
    [("a", GoVal.int (-1)), ("b", GoVal.int 1)] ≠ [("b", GoVal.int 1), ("a", GoVal.int (-1))] := by
  refine ⟨by with_unfolding_all rfl, by with_unfolding_all rfl, by with_unfolding_all rfl, ?_⟩
  intro h
  injection h with h1 _
  injection h1 with hk _
  exact absurd hk (by decide)

/-- C3.  `parseInsert` decodes its whole argument text into a single
`bson.M` map, so an `insertMany` call whose argument is an array literal of
documents fails to parse (the statement is skipped; no operation with the
array's documents is produced), contrary to the claim — and to the
package's own documentation of `insertMany` batch inserts and to
`executeInsert`'s multi-document `insertMany` branch, which can never see
more than one document.  The claim's `insertOne` scenario and the
no-argument error do hold, as the last two conjuncts show. -/
theorem insertMany_array_argument_rejected :
    (parseMongoStatement "db.users.insertMany([\x7bname: \x27Ann\x27\x7d, \x7bname: \x27Bob\x27\x7d]);").isOk = false ∧
    parseJavaScriptOperations "db.users.insertMany([\x7bname: \x27Ann\x27\x7d, \x7bname: \x27Bob\x27\x7d]);" = [] ∧
    parseJavaScriptOperations "db.users.insertOne(\x7bname:\x27Ann\x27, age:30\x7d);" =
      [{ type := "insert", collection := "users", operation := "insertOne",
         arguments := [GoVal.obj [("age", GoVal.float 30), ("name", GoVal.str "Ann")]],
         indexSpec := none, indexOptions := none, validator := none }] ∧
    parseInsert "users" "insertOne" "" = Except.error "failed to parse insert document: empty input" := by
  refine ⟨?_, ?_, ?_, ?_⟩ <;> with_unfolding_all rfl

/-- C2 (counterexample).  A literal that still fails strict-JSON decoding
after normalization does not abort the whole script: in a script whose
first statement has the undecodable literal `{a:}` and whose second is a
well-formed delete, the top-level parse returns the delete operation (the
failing statement is merely skipped), rather than stopping at the first
normalization failure with an error. -/
theorem looseLiteral_does_not_abort_script :
    (parseMongoStatement "db.users.insertOne(\x7ba:\x7d);").isOk = false ∧
    parseJavaScriptOperations "db.users.insertOne(\x7ba:\x7d);\ndb.users.deleteOne(\x7ba: 1\x7d);" =
      [{ type := "delete", collection := "users", operation := "deleteOne",
         arguments := [GoVal.obj [("a", GoVal.float 1)]],
         indexSpec := none, indexOptions := none, validator := none }] := by
  refine ⟨?_, ?_⟩ <;> with_unfolding_all rfl

/-- C9 (counterexample).  The numeric string `"1.0"` denotes a whole value,
but `convertToNumber` returns it as the float `1.0`, never as an integer:
the string branch for dotted strings returns the parsed float unchecked,
so the claim's "integer when the value is whole" fails for numeric
strings. -/
theorem numeric_string_with_dot_stays_float :
    convertToNumber (GoVal.str "1.0") = Except.ok (GoVal.float 1) ∧
    ∀ i : Int, convertToNumber (GoVal.str "1.0") ≠ Except.ok (GoVal.int i) := by
  have h : convertToNumber (GoVal.str "1.0") = Except.ok (GoVal.float 1) := by
    with_unfolding_all rfl
  refine ⟨h, ?_⟩
  intro i hcontra
  rw [h] at hcontra
  injection hcontra with hv
  exact GoVal.noConfusion hv

/-- C8.  Update arity: with fewer than two split arguments `parseUpdate`
returns the arity error (so no operation is emitted for the statement),
and with at least two decodable arguments the first becomes the filter and
the second the update document of the resulting operation. -/
theorem update_arity_and_argument_assignment :
    ∀ (collection operation argsString : String),
      ((splitArguments argsString).length < 2 →
        parseUpdate collection operation argsString =
          Except.error "update operation requires at least 2 arguments") ∧
      (∀ (a0 a1 : String) (rest : List String) (f u : GoVal),
        splitArguments argsString = a0 :: a1 :: rest →
        parseJSONLikeMap a0 = Except.ok f →
        parseJSONLikeMap a1 = Except.ok u →
        parseUpdate collection operation argsString =
          Except.ok { baseOp "update" collection operation with arguments := [f, u] }) := by
  intro c o s
  constructor
  · intro hlen
    rcases hsplit : splitArguments s with _ | ⟨a0, _ | ⟨a1, rest⟩⟩
    · simp [parseUpdate, hsplit]
    · simp [parseUpdate, hsplit]
    · rw [hsplit] at hlen
      simp at hlen
      omega
  · intro a0 a1 rest f u hs h0 h1
    simp [parseUpdate, hs, h0, h1]

/-- C8 witness: a single-argument `updateOne` is an arity error, and a
two-argument one carries filter and update in order. -/
theorem update_arity_witness :
    parseUpdate "users" "updateOne" "\x7ba:1\x7d" =
      Except.error "update operation requires at least 2 arguments" ∧
    parseUpdate "users" "updateOne" "\x7ba: 1\x7d, \x7bb: 2\x7d" =
      Except.ok
        { baseOp "update" "users" "updateOne" with
            arguments := [GoVal.obj [("a", GoVal.float 1)], GoVal.obj [("b", GoVal.float 2)]] } :=
  ⟨(update_arity_and_argument_assignment "users" "updateOne" "\x7ba:1\x7d").1 (by decide),
   (update_arity_and_argument_assignment "users" "updateOne" "\x7ba: 1\x7d, \x7bb: 2\x7d").2
     "\x7ba: 1\x7d" "\x7bb: 2\x7d" [] _ _ (by decide)
     (by with_unfolding_all rfl) (by with_unfolding_all rfl)⟩

/-- C9 (amended).  Coercion as the code implements it: a decoded numeric
literal (`float64`) becomes an integer exactly when it is whole, and stays
a float otherwise; a numeric string is parsed as an integer when it has no
dot and as a float (kept a float even when whole) when it has a dot, so a
dotless scientific form such as `"1e5"` is not coerced; a string neither
form accepts, and any non-number non-string value, is reported "not a
number" (and `parseCreateIndex` then keeps the value verbatim, as the last
conjunct shows for `"text"`). -/
theorem convertToNumber_coercion_cases :
    ∀ (q : Rat) (s : String) (i : Int),
      (q.den = 1 → convertToNumber (GoVal.float q) = Except.ok (GoVal.int q.num)) ∧
      (q.den ≠ 1 → convertToNumber (GoVal.float q) = Except.ok (GoVal.float q)) ∧
      (∀ f : Rat, containsChar s.data '.' = true → goParseFloat s = some f →
        convertToNumber (GoVal.str s) = Except.ok (GoVal.float f)) ∧
      (containsChar s.data '.' = false → goAtoi s = some i →
        convertToNumber (GoVal.str s) = Except.ok (GoVal.int i)) ∧
      (containsChar s.data '.' = true → goParseFloat s = none →
        convertToNumber (GoVal.str s) = Except.error "not a number") ∧
      (containsChar s.data '.' = false → goAtoi s = none →
        convertToNumber (GoVal.str s) = Except.error "not a number") ∧
      convertToNumber (GoVal.int i) = Except.ok (GoVal.int i) ∧
      parseCreateIndex "c" "\x7bk: \x27text\x27\x7d" =
        Except.ok { baseOp "createIndex" "c" "createIndex" with
                      indexSpec := some [("k", GoVal.str "text")] } := by
  intro q s i
  refine ⟨?_, ?_, ?_, ?_, ?_, ?_, by rfl, by with_unfolding_all rfl⟩
  · intro h
    simp [convertToNumber, h]
  · intro h
    simp [convertToNumber, h]
  · intro f h hf
    simp [convertToNumber, h, hf]
  · intro h hi
    simp [convertToNumber, h, hi]
  · intro h hf
    simp [convertToNumber, h, hf]
  · intro h hi
    simp [convertToNumber, h, hi]

/-- C9 witness: the integer strings `"1"`/`"-1"` become Go ints, the
string `"1.0"` becomes the float `1.0`, the whole literal `1.0` becomes
the int `1`, the non-whole literal `1.5` stays a float, and `"text"` and
`"1e5"` are not numbers. -/
theorem convertToNumber_coercion_witness :
    convertToNumber (GoVal.str "1") = Except.ok (GoVal.int 1) ∧
    convertToNumber (GoVal.str "-1") = Except.ok (GoVal.int (-1)) ∧
    convertToNumber (GoVal.str "1.0") = Except.ok (GoVal.float 1) ∧
    convertToNumber (GoVal.float 1) = Except.ok (GoVal.int 1) ∧
    convertToNumber (GoVal.float (mkRat 3 2)) = Except.ok (GoVal.float (mkRat 3 2)) ∧
    convertToNumber (GoVal.str "text") = Except.error "not a number" ∧
    convertToNumber (GoVal.str "1e5") = Except.error "not a number" :=
  ⟨(convertToNumber_coercion_cases 1 "1" 1).2.2.2.1 (by decide) (by with_unfolding_all rfl),
   (convertToNumber_coercion_cases 1 "-1" (-1)).2.2.2.1 (by decide) (by with_unfolding_all rfl),
   (convertToNumber_coercion_cases 1 "1.0" 1).2.2.1 1 (by decide) (by with_unfolding_all rfl),
   (convertToNumber_coercion_cases 1 "1" 1).1 (by decide),
   (convertToNumber_coercion_cases (mkRat 3 2) "1" 1).2.1 (by decide),
   (convertToNumber_coercion_cases 1 "text" 1).2.2.2.2.2.1 (by decide) (by with_unfolding_all rfl),
   (convertToNumber_coercion_cases 1 "1e5" 1).2.2.2.2.2.1 (by decide) (by with_unfolding_all rfl)⟩

/-- With no `// METADATA:` marker line, the collection loop of
`ParseMetadata` gathers nothing. -/
theorem collectMeta_no_marker (ls : List (List Char)) :
    (∀ line ∈ ls, goStartsWith (goTrimSpaceL line) "// METADATA:".data = false) →
    collectMeta false ls = [] := by
  induction ls with
  | nil => intro _; rfl
  | cons l rest ih =>
    intro h
    have h0 := h l (List.mem_cons_self l rest)
    simp only [collectMeta, h0, if_false, Bool.false_eq_true]
    exact ih (fun x hx => h x (List.mem_cons_of_mem l hx))

/-- C10.  `ParseMetadata` never fails: it returns `nil` when no
`// METADATA:` marker line is present, when the marker is present but no
non-empty commented lines are collected after it, and when the collected
comment text does not decode as `ScriptMetadata` (the failure is only
logged).  (It is also independent of the operation pipeline:
`parseJavaScriptOperations` makes no reference to it.) -/
theorem parseMetadata_nil_cases :
    ∀ content : String,
      ((∀ line ∈ splitLinesL content.data,
          goStartsWith (goTrimSpaceL line) "// METADATA:".data = false) →
        parseMetadata content = none) ∧
      (collectMeta false (splitLinesL content.data) = [] → parseMetadata content = none) ∧
      (decodeScriptMetadata ⟨(collectMeta false (splitLinesL content.data)).flatten⟩ = none →
        parseMetadata content = none) := by
  intro content
  refine ⟨?_, ?_, ?_⟩
  · intro h
    have hc := collectMeta_no_marker (splitLinesL content.data) h
    simp [parseMetadata, hc]
  · intro h
    simp [parseMetadata, h]
  · intro h
    unfold parseMetadata
    by_cases hc : collectMeta false (splitLinesL content.data) = []
    · simp [hc]
    · simp [hc, h]

/-- C10 witness: no marker, marker with no following comment lines, and
marker with non-JSON comment text all yield `nil`. -/
theorem parseMetadata_nil_cases_witness :
    parseMetadata "db.x.f();" = none ∧
    parseMetadata "// METADATA:\ndb.x.f();" = none ∧
    parseMetadata "// METADATA:\n// not json\ndb.x.f();" = none :=
  ⟨(parseMetadata_nil_cases "db.x.f();").1 (by decide),
   (parseMetadata_nil_cases "// METADATA:\ndb.x.f();").2.1 (by decide),
   (parseMetadata_nil_cases "// METADATA:\n// not json\ndb.x.f();").2.2
     (by with_unfolding_all rfl)⟩

/-- The source's trailing-comma loop computes exactly the specification
reading `rtcSpec`: drop a comma iff it is outside quoted literals and its
next non-whitespace character closes a brace or bracket; keep everything
else verbatim, in order. -/
theorem rtcL_eq_rtcSpec : ∀ (l : List Char) (q : Option Char), rtcL q l = rtcSpec q l := by
  intro l
  induction l with
  | nil => intro q; rfl
  | cons c rest ih =>
    intro q
    by_cases h1 : c = '\x22' ∨ c = '\x27'
    · have hc : c ≠ ',' := by
        rcases h1 with h | h <;> (subst h; decide)
      cases q with
      | none =>
        rcases h1 with h | h <;> (subst h; simp [rtcL, rtcSpec, qStep, ih])
      | some qc =>
        by_cases h2 : c = qc
        · subst h2
          rcases h1 with h | h <;> (subst h; simp [rtcL, rtcSpec, qStep, ih])
        · rcases h1 with h | h <;>
            (subst h; simp [rtcL, rtcSpec, qStep, h2, ih])
    · push_neg at h1
      obtain ⟨ha, hb⟩ := h1
      by_cases h3 : c = ','
      · subst h3
        cases q with
        | none =>
          by_cases h4 : nextIsClose rest
          · simp [rtcL, rtcSpec, qStep, h4, ih]
          · simp [rtcL, rtcSpec, qStep, h4, ih]
        | some qc =>
          simp [rtcL, rtcSpec, qStep, ih]
      · cases q with
        | none => simp [rtcL, rtcSpec, qStep, ha, hb, h3, ih]
        | some qc => simp [rtcL, rtcSpec, qStep, ha, hb, h3, ih]

/-- C7 (counterexample).  The claim's first example is byte-wrong: the
space after the kept comma is preserved (as the claim's own "preserves
every other character" clause requires), so `{a:1, b:2,}` normalizes to
`{"a":1, "b":2}` and not to the claimed `{"a":1,"b":2}`. -/
theorem trailing_comma_example_preserves_space :
    normalizeJavaScriptObject "\x7ba:1, b:2,\x7d" = "\x7b\x22a\x22:1, \x22b\x22:2\x7d" ∧
    normalizeJavaScriptObject "\x7ba:1, b:2,\x7d" ≠ "\x7b\x22a\x22:1,\x22b\x22:2\x7d" := by
  refine ⟨by decide, by decide⟩

/-- C7 (amended).  For every input, the trailing-comma pass drops exactly
the commas outside quoted literals whose next non-whitespace character is
a closing `}` or `]`, and emits every other character (commas included)
verbatim and in order — the first conjunct states this as equality with
the positional specification `rtcSpec` — and the claim's examples hold
with the kept comma's following space preserved: `{a:1, b:2,}` normalizes
to `{"a":1, "b":2}` and `{a:[1,2,],b:3}` to `{"a":[1,2],"b":3}`. -/
theorem removeTrailingCommas_drops_exactly_trailing_commas :
    (∀ s : String, removeTrailingCommas s = ⟨rtcSpec none s.data⟩) ∧
    normalizeJavaScriptObject "\x7ba:1, b:2,\x7d" = "\x7b\x22a\x22:1, \x22b\x22:2\x7d" ∧
    normalizeJavaScriptObject "\x7ba:[1,2,],b:3\x7d" = "\x7b\x22a\x22:[1,2],\x22b\x22:3\x7d" := by
  refine ⟨?_, by decide, by decide⟩
  intro s
  unfold removeTrailingCommas
  rw [rtcL_eq_rtcSpec]

/-- The raw segmentation always yields at least one segment. -/
theorem segSpec_ne_nil : ∀ (st : ScanSt) (l : List Char), segSpec st l ≠ [] := by
  intro st l
  induction l generalizing st with
  | nil => simp [segSpec]
  | cons c rest ih =>
    simp only [segSpec]
    split
    · simp
    · split
      · simp
      · simp

/-- The accumulator loop of `splitArguments` agrees with splitting at the
qualifying commas: with pending text `cur` and raw segments
`seg :: segs` of the remaining input, the loop produces the finished
segments of `(cur ++ seg) :: segs`. -/
theorem splitArgsL_eq_finishSegs :
    ∀ (l : List Char) (st : ScanSt) (cur seg : List Char) (segs : List (List Char)),
      segSpec st l = seg :: segs →
      splitArgsL cur st l = finishSegs ((cur ++ seg) :: segs) := by
  intro l
  induction l with
  | nil =>
    intro st cur seg segs h
    simp only [segSpec] at h
    injection h with h1 h2
    subst h1
    subst h2
    simp [splitArgsL, finishSegs]
  | cons c rest ih =>
    intro st cur seg segs h
    simp only [segSpec] at h
    by_cases hc : (c = ',' && st.q = none && st.depth = 0) = true
    · rw [if_pos hc] at h
      injection h with h1 h2
      subst h1
      subst h2
      obtain ⟨seg', segs', hss⟩ : ∃ a b, segSpec st rest = a :: b := by
        rcases hrest : segSpec st rest with _ | ⟨a, b⟩
        · exact absurd hrest (segSpec_ne_nil st rest)
        · exact ⟨a, b, rfl⟩
      simp only [splitArgsL, hc, if_pos]
      rw [ih st [] seg' segs' hss]
      rw [hss]
      simp [finishSegs]
    · rw [if_neg hc] at h
      rcases hrest : segSpec (scanStep st c) rest with _ | ⟨seg', segs'⟩
      · exact absurd hrest (segSpec_ne_nil _ rest)
      · rw [hrest] at h
        injection h with h1 h2
        subst h1
        subst h2
        simp only [splitArgsL, hc, if_neg]
        rw [ih (scanStep st c) (cur ++ [c]) seg' segs' hrest]
        simp

/-- C4 (counterexample).  The splitter's depth counter tracks only curly
braces, not square brackets, so a comma inside a bracketed array at brace
depth 0 *does* split: `[1,2]` is split into the two fragments `[1` and
`2]`, where the claim requires the single argument `[1,2]`. -/
theorem splitArguments_bracket_comma_splits :
    splitArguments "[1,2]" = ["[1", "2]"] ∧
    splitArguments "[1,2]" ≠ ["[1,2]"] := by
  refine ⟨by decide, by decide⟩

/-- C4 (amended).  The splitter splits exactly at the commas that lie
outside quoted literals at *curly-brace* depth 0 (square brackets are not
counted): the first conjunct equates the source loop with the positional
specification `splitArgsSpec`, whose split condition is precisely
`q = none ∧ depth = 0` with `depth` counting `{`/`}` only.  The claim's
brace example holds — `({a:1},{b:{c:2}})` yields exactly `{a:1}` and
`{b:{c:2}}` — but a comma inside `[...]` at brace depth 0 splits. -/
theorem splitArguments_splits_at_brace_depth_zero_commas :
    (∀ s : String, splitArguments s = splitArgsSpec s) ∧
    splitArguments "\x7ba:1\x7d,\x7bb:\x7bc:2\x7d\x7d" = ["\x7ba:1\x7d", "\x7bb:\x7bc:2\x7d\x7d"] ∧
    splitArguments "[1,2]" = ["[1", "2]"] := by
  refine ⟨?_, by decide, by decide⟩
  intro s
  unfold splitArguments splitArgsSpec
  rcases h : segSpec ⟨none, 0⟩ s.data with _ | ⟨seg, segs⟩
  · exact absurd h (segSpec_ne_nil _ _)
  · rw [splitArgsL_eq_finishSegs s.data ⟨none, 0⟩ [] seg segs h]
    simp

/-- Splitting on newlines always yields at least one line. -/
theorem splitLinesL_ne_nil : ∀ l : List Char, splitLinesL l ≠ [] := by
  intro l
  induction l with
  | nil => simp [splitLinesL]
  | cons c rest ih =>
    simp only [splitLinesL]
    split
    · simp
    · split
      · simp
      · simp

/-- Lines of a newline-joined concatenation are the two line lists
concatenated. -/
theorem splitLinesL_append :
    ∀ a b : List Char, splitLinesL (a ++ '\n' :: b) = splitLinesL a ++ splitLinesL b := by
  intro a b
  induction a with
  | nil => simp [splitLinesL]
  | cons c a' ih =>
    by_cases hc : c = '\n'
    · subst hc
      show splitLinesL ('\n' :: (a' ++ '\n' :: b)) = splitLinesL ('\n' :: a') ++ splitLinesL b
      simp only [splitLinesL, if_pos rfl, ih]
      simp
    · rcases ha : splitLinesL a' with _ | ⟨s0, ss⟩
      · exact absurd ha (splitLinesL_ne_nil a')
      · show splitLinesL (c :: (a' ++ '\n' :: b)) = splitLinesL (c :: a') ++ splitLinesL b
        simp only [splitLinesL, hc, if_neg, if_false]
        rw [show splitLinesL (a' ++ '\n' :: b) = splitLinesL a' ++ splitLinesL b from ih]
        rw [ha]
        simp [hc]

/-- One segmenter step started with pending output `out` appends to `out`
exactly what the same step started empty would emit, with the same state. -/
theorem segStep_out (st : SegSt) (out : List (List Char)) (l : List Char) :
    segStep (st, out) l = ((segStep (st, []) l).1, out ++ (segStep (st, []) l).2) := by
  unfold segStep
  dsimp only
  split
  · simp
  · split
    · simp
    · simp

/-- The segmenter fold started with pending output `out` appends to `out`
exactly what the fold started empty emits, with the same final state. -/
theorem foldl_segStep_out :
    ∀ (ls : List (List Char)) (st : SegSt) (out : List (List Char)),
      ls.foldl segStep (st, out) =
        ((ls.foldl segStep (st, [])).1, out ++ (ls.foldl segStep (st, [])).2) := by
  intro ls
  induction ls with
  | nil => intro st out; simp
  | cons l ls' ih =>
    intro st out
    simp only [List.foldl_cons]
    rw [segStep_out st out l]
    rcases hstep : segStep (st, []) l with ⟨st1, o1⟩
    rw [ih st1 (out ++ o1), ih st1 o1]
    simp

/-- Segmenter run of a newline join: continue the right script's lines from
the left script's final state and output. -/
theorem segRun_append (a b : String) :
    segRun (a ++ "\n" ++ b) = (splitLinesL b.data).foldl segStep (segRun a) := by
  have hdata : (a ++ "\n" ++ b).data = a.data ++ '\n' :: b.data := by
    rw [show (a ++ "\n" ++ b).data = (a.data ++ ['\n']) ++ b.data from rfl, List.append_assoc]
    rfl
  unfold segRun
  rw [hdata, splitLinesL_append, List.foldl_append]

/-- Segmenter run of a newline join whose left part is clean: the states
are the right part's, the outputs concatenate. -/
theorem segRun_append_clean (a b : String) (h : cleanSeg a) :
    segRun (a ++ "\n" ++ b) = ((segRun b).1, (segRun a).2 ++ (segRun b).2) := by
  rw [segRun_append]
  unfold cleanSeg at h
  have hpair : segRun a = (⟨[], ⟨none, 0⟩⟩, (segRun a).2) := by
    rw [← h]
  rw [hpair]
  rw [foldl_segStep_out]
  unfold segRun
  rfl

/-- Segmentation in terms of the segmenter run: the emitted statements plus
the flushed final buffer when non-empty. -/
theorem splitIntoStatements_eq_segRun (js : String) :
    splitIntoStatements js =
      (if (segRun js).1.buf = [] then (segRun js).2
       else (segRun js).2 ++ [(segRun js).1.buf]).map (fun l => (⟨l⟩ : String)) := by
  unfold splitIntoStatements segRun
  rcases h : (splitLinesL js.data).foldl segStep (⟨[], ⟨none, 0⟩⟩, []) with ⟨fin, out⟩
  simp

/-- Statement segmentation distributes over a newline join when the left
script is segmentation-clean. -/
theorem splitIntoStatements_append (a b : String) (h : cleanSeg a) :
    splitIntoStatements (a ++ "\n" ++ b) = splitIntoStatements a ++ splitIntoStatements b := by
  rw [splitIntoStatements_eq_segRun (a ++ "\n" ++ b), segRun_append_clean a b h,
    splitIntoStatements_eq_segRun a, splitIntoStatements_eq_segRun b]
  unfold cleanSeg at h
  rw [h]
  split
  · simp
  · simp

/-- The operation list of a newline join of a clean script and any second
script is the two operation lists concatenated: per-statement processing
is independent and order-preserving. -/
theorem parseJavaScriptOperations_append (a b : String) (h : cleanSeg a) :
    parseJavaScriptOperations (a ++ "\n" ++ b) =
      parseJavaScriptOperations a ++ parseJavaScriptOperations b := by
  unfold parseJavaScriptOperations
  rw [splitIntoStatements_append a b h]
  simp

/-- Associativity of string concatenation (via the underlying lists). -/
theorem strAppend_assoc : ∀ x y z : String, (x ++ y) ++ z = x ++ (y ++ z) := by
  intro x y z
  have hd : ((x ++ y) ++ z).data = (x ++ (y ++ z)).data := by
    show (x.data ++ y.data) ++ z.data = x.data ++ (y.data ++ z.data)
    exact List.append_assoc _ _ _
  calc (x ++ y) ++ z = ⟨((x ++ y) ++ z).data⟩ := rfl
    _ = ⟨(x ++ (y ++ z)).data⟩ := by rw [hd]
    _ = x ++ (y ++ z) := rfl

/-- C2 (amended).  A literal that still fails strict-JSON parsing after
normalization causes only its own statement to be logged and skipped: for
*every* surrounding clean script prefix and arbitrary suffix, the
top-level parse of prefix + failing statement + suffix returns exactly the
prefix's operations followed by the suffix's operations — it does not
abort at the failure, and it returns no error (the Go function returns a
`nil` error on every path). -/
theorem looseLiteral_skips_statement_and_continues :
    ∀ pre post : String, cleanSeg pre →
      parseJavaScriptOperations
          (pre ++ "\n" ++ "db.users.insertOne(\x7ba:\x7d);" ++ "\n" ++ post) =
        parseJavaScriptOperations pre ++ parseJavaScriptOperations post := by
  intro pre post hpre
  have h1 : pre ++ "\n" ++ "db.users.insertOne(\x7ba:\x7d);" ++ "\n" ++ post =
      pre ++ "\n" ++ ("db.users.insertOne(\x7ba:\x7d);" ++ "\n" ++ post) := by
    rw [strAppend_assoc (pre ++ "\n") "db.users.insertOne(\x7ba:\x7d);" "\n",
      strAppend_assoc (pre ++ "\n") ("db.users.insertOne(\x7ba:\x7d);" ++ "\n") post,
      strAppend_assoc "db.users.insertOne(\x7ba:\x7d);" "\n" post]
  rw [h1, parseJavaScriptOperations_append pre _ hpre,
    parseJavaScriptOperations_append "db.users.insertOne(\x7ba:\x7d);" post (by decide),
    show parseJavaScriptOperations "db.users.insertOne(\x7ba:\x7d);" = [] from by
      with_unfolding_all rfl]
  simp

/-- C2 witness: with a concrete clean prefix and suffix around the failing
statement, the parse yields the two good delete operations. -/
theorem looseLiteral_skips_witness :
    parseJavaScriptOperations
        ("db.users.deleteOne(\x7ba: 1\x7d);" ++ "\n" ++ "db.users.insertOne(\x7ba:\x7d);" ++
          "\n" ++ "db.t.deleteMany(\x7bb: 2\x7d);") =
      parseJavaScriptOperations "db.users.deleteOne(\x7ba: 1\x7d);" ++
        parseJavaScriptOperations "db.t.deleteMany(\x7bb: 2\x7d);" :=
  looseLiteral_skips_statement_and_continues "db.users.deleteOne(\x7ba: 1\x7d);"
    "db.t.deleteMany(\x7bb: 2\x7d);" (by decide)

/-- Strings with equal character lists are equal. -/
theorem strEqOfData : ∀ x y : String, x.data = y.data → x = y := by
  intro x y h
  calc x = ⟨x.data⟩ := rfl
    _ = ⟨y.data⟩ := by rw [h]
    _ = y := rfl

/-- C6.  An unrecognized method is a non-fatal skip, and malformed
statements do not stop the script: (1) whenever the call shape extracts
with a method outside the fixed supported set, `parseMongoStatement`
returns the no-operation success `ok none` (the Go `(nil, nil)` after
logging); (2) for every clean prefix and arbitrary suffix, a script with a
malformed statement (`db.x();`, no second dot) and an unrecognized-method
statement (`findOne`) in the middle still yields exactly the prefix's and
suffix's operations — the top-level parse never fails because of them. -/
theorem unsupported_method_skipped_script_continues :
    (∀ (stmt c m a : String),
      goStartsWith (goTrimSuffixL (goTrimSpaceL stmt.data) [';'])
        "db.createCollection(".data = false →
      extractCall (goTrimSuffixL (goTrimSpaceL stmt.data) [';']) = Except.ok (c, m, a) →
      m ∉ ["createIndex", "insertOne", "insertMany", "updateOne", "updateMany",
            "deleteOne", "deleteMany"] →
      parseMongoStatement stmt = Except.ok none) ∧
    (∀ pre post : String, cleanSeg pre →
      parseJavaScriptOperations
          (pre ++ "\n" ++ ("db.x();" ++ "\n" ++ ("db.users.findOne(\x7ba: 1\x7d);" ++ "\n" ++ post))) =
        parseJavaScriptOperations pre ++ parseJavaScriptOperations post) := by
  constructor
  · intro stmt c m a h1 h2 hm
    have hm1 : ¬(m = "createIndex") := fun h => hm (by simp [h])
    have hm2 : ¬(m = "insertOne") := fun h => hm (by simp [h])
    have hm3 : ¬(m = "insertMany") := fun h => hm (by simp [h])
    have hm4 : ¬(m = "updateOne") := fun h => hm (by simp [h])
    have hm5 : ¬(m = "updateMany") := fun h => hm (by simp [h])
    have hm6 : ¬(m = "deleteOne") := fun h => hm (by simp [h])
    have hm7 : ¬(m = "deleteMany") := fun h => hm (by simp [h])
    simp [parseMongoStatement, h1, h2, hm1, hm2, hm3, hm4, hm5, hm6, hm7]
  · intro pre post hpre
    rw [parseJavaScriptOperations_append pre _ hpre,
      parseJavaScriptOperations_append "db.x();" _ (by decide),
      parseJavaScriptOperations_append "db.users.findOne(\x7ba: 1\x7d);" post (by decide),
      show parseJavaScriptOperations "db.x();" = [] from by with_unfolding_all rfl,
      show parseJavaScriptOperations "db.users.findOne(\x7ba: 1\x7d);" = [] from by
        with_unfolding_all rfl]
    simp

/-- C6 witness: the unknown-method statement parses to `ok none`, and a
concrete script with malformed and unknown statements between two good
deletes yields exactly the two good operations. -/
theorem unsupported_method_witness :
    parseMongoStatement "db.users.findOne(\x7ba: 1\x7d);" = Except.ok none ∧
    parseJavaScriptOperations
        ("db.users.deleteOne(\x7ba: 1\x7d);" ++ "\n" ++ ("db.x();" ++ "\n" ++
          ("db.users.findOne(\x7ba: 1\x7d);" ++ "\n" ++ "db.t.deleteMany(\x7bb: 2\x7d);"))) =
      parseJavaScriptOperations "db.users.deleteOne(\x7ba: 1\x7d);" ++
        parseJavaScriptOperations "db.t.deleteMany(\x7bb: 2\x7d);" :=
  ⟨unsupported_method_skipped_script_continues.1 "db.users.findOne(\x7ba: 1\x7d);"
      "users" "findOne" "\x7ba: 1\x7d" (by decide) (by with_unfolding_all rfl) (by decide),
   unsupported_method_skipped_script_continues.2 "db.users.deleteOne(\x7ba: 1\x7d);"
      "db.t.deleteMany(\x7bb: 2\x7d);" (by decide)⟩

/-- A decimal digit is not one of the scanners' special characters. -/
theorem digit_ne_special :
    ∀ c : Char, isDigitCh c = true →
      c ≠ '\x22' ∧ c ≠ '\x27' ∧ c ≠ ',' ∧ c ≠ ':' ∧ c ≠ '\x7d' ∧ c ≠ ']' := by
  intro c h
  refine ⟨?_, ?_, ?_, ?_, ?_, ?_⟩ <;> (intro heq; subst heq; exact absurd h (by decide))

/-- A decimal digit cannot start an identifier run. -/
theorem digit_not_alphaStart : ∀ c : Char, isDigitCh c = true → isAlphaStart c = false := by
  intro c h
  simp only [isDigitCh, Bool.and_eq_true, decide_eq_true_eq] at h
  obtain ⟨h1, h2⟩ := h
  have n1 : 48 ≤ c.toNat := h1
  have n2 : c.toNat ≤ 57 := h2
  cases halpha : isAlphaStart c
  · rfl
  · exfalso
    simp only [isAlphaStart, Bool.or_eq_true, Bool.and_eq_true, decide_eq_true_eq] at halpha
    rcases halpha with ((⟨ha, hb⟩ | ⟨ha, hb⟩) | hc) | hc
    · have : 97 ≤ c.toNat := ha
      omega
    · have : 65 ≤ c.toNat := ha
      have : c.toNat ≤ 90 := hb
      have h95 : 65 ≤ c.toNat := ha
      omega
    · subst hc
      exact absurd n2 (by decide)
    · subst hc
      exact absurd n1 (by decide)

/-- An alpha-start character is not a double quote. -/
theorem alphaStart_ne_dq : ∀ c : Char, isAlphaStart c = true → c ≠ '\x22' := by
  intro c h heq
  subst heq
  exact absurd h (by decide)

/-- Whitespace characters are inert for every scanner involved. -/
theorem isWs4_class :
    ∀ c : Char, isWs4 c = true →
      inertRtc c = true ∧ inertAqk c = true ∧ isIdentCh c = false ∧ c ≠ ':' ∧
        c ≠ '\x27' ∧ c ≠ '\x22' ∧ c ≠ '\x7d' ∧ c ≠ ']' := by
  intro c h
  simp only [isWs4, Bool.or_eq_true, decide_eq_true_eq] at h
  rcases h with ((h | h) | h) | h <;> subst h <;>
    exact ⟨by decide, by decide, by decide, by decide, by decide, by decide, by decide, by decide⟩

/-- A whitespace character that is not a space or tab is a newline or a
carriage return, and safely terminates an identifier run. -/
theorem isWs4_not_sptab_safe :
    ∀ c : Char, isWs4 c = true → isSpaceTab c = false →
      (!isIdentCh c && !isSpaceTab c && !(c = ':')) = true := by
  intro c h hs
  simp only [isWs4, Bool.or_eq_true, decide_eq_true_eq] at h
  rcases h with ((h | h) | h) | h <;> subst h <;> first
    | exact absurd hs (by decide)
    | decide

/-- Number characters are inert for both rewrite scanners and are not
single quotes. -/
theorem numChOk_class :
    ∀ c : Char, numChOk c = true →
      inertRtc c = true ∧ inertAqk c = true ∧ c ≠ '\x27' := by
  intro c h
  simp only [numChOk, Bool.or_eq_true, decide_eq_true_eq] at h
  rcases h with (hd | h) | h
  · obtain ⟨n1, n2, n3, _, _, _⟩ := digit_ne_special c hd
    have ha := digit_not_alphaStart c hd
    exact ⟨by simp [inertRtc, n1, n2, n3], by simp [inertAqk, n1, ha], n2⟩
  · subst h
    exact ⟨by decide, by decide, by decide⟩
  · subst h
    exact ⟨by decide, by decide, by decide⟩

/-- Pass-through: `removeTrailingCommas` maps a run of inert characters through
verbatim, in any quote state, leaving the state unchanged. -/
theorem rtc_chunk :
    ∀ (l : List Char) (q : Option Char) (rest : List Char),
      l.all inertRtc = true → rtcL q (l ++ rest) = l ++ rtcL q rest := by
  intro l
  induction l with
  | nil => intro q rest _; rfl
  | cons c t ih =>
    intro q rest h
    simp only [List.all_cons, Bool.and_eq_true] at h
    obtain ⟨hc, ht⟩ := h
    simp only [inertRtc, Bool.or_eq_true, decide_eq_true_eq, Bool.not_eq_true'] at hc
    have h1 : ¬(c = '\x22' ∨ c = '\x27') := by
      intro hor
      rcases hor with h | h <;> simp [h] at hc
    have h2 : c ≠ ',' := by
      intro h
      simp [h] at hc
    simp only [List.cons_append, rtcL]
    rw [if_neg (by simpa using h1), if_neg (by simpa using h2)]
    exact congrArg (List.cons c) (ih q rest ht)

/-- Pass-through: `removeTrailingCommas` keeps quoted-literal content (anything but the
closing double quote) through verbatim inside a double-quoted literal. -/
theorem rtc_inq_chunk :
    ∀ (l : List Char) (rest : List Char),
      l.all (fun c => !(c = '\x22')) = true →
      rtcL (some '\x22') (l ++ rest) = l ++ rtcL (some '\x22') rest := by
  intro l
  induction l with
  | nil => intro rest _; rfl
  | cons c t ih =>
    intro rest h
    simp only [List.all_cons, Bool.and_eq_true, Bool.not_eq_true', decide_eq_false_iff_not] at h
    obtain ⟨hc, ht⟩ := h
    simp only [List.cons_append, rtcL]
    by_cases hq : (c = '\x22' ∨ c = '\x27')
    · rcases hq with h | h
      · exact absurd h hc
      · subst h
        rw [if_pos (by simp)]
        simp only [if_neg (by decide : ¬('\x27' : Char) = '\x22')]
        exact congrArg (List.cons '\x27') (ih rest ht)
    · rw [if_neg (by simpa using hq)]
      by_cases hcm : c = ','
      · subst hcm
        rw [if_pos rfl]
        exact congrArg (List.cons ',') (ih rest ht)
      · rw [if_neg hcm]
        exact congrArg (List.cons c) (ih rest ht)

/-- Pass-through: `removeTrailingCommas` keeps a whole double-quoted literal through
verbatim when its body contains no quote characters. -/
theorem rtc_str_chunk :
    ∀ (s : List Char) (rest : List Char),
      strContentOk s = true →
      rtcL none ('\x22' :: (s ++ '\x22' :: rest)) = '\x22' :: (s ++ '\x22' :: rtcL none rest) := by
  intro s rest h
  have hs : s.all (fun c => !(c = '\x22')) = true := by
    simp only [strContentOk, List.all_eq_true] at h ⊢
    intro c hc
    have := h c hc
    simp only [Bool.and_eq_true, decide_eq_true_eq] at this
    simp [this.1]
  show rtcL none ('\x22' :: (s ++ '\x22' :: rest)) = '\x22' :: (s ++ '\x22' :: rtcL none rest)
  simp only [rtcL, if_pos (by simp : ('\x22' : Char) = '\x22' ∨ ('\x22' : Char) = '\x27')]
  rw [rtc_inq_chunk s ('\x22' :: rest) hs]
  simp only [rtcL, if_pos (by simp : ('\x22' : Char) = '\x22' ∨ ('\x22' : Char) = '\x27'),
    if_pos rfl]
  simp

/-- Pass-through: `addQuotesToKeys` maps a run of inert characters (no quote, no
identifier start) through verbatim in the outside-quotes state. -/
theorem aqk_out_chunk :
    ∀ (l : List Char) (rest : List Char),
      l.all inertAqk = true → aqkL AqkSt.out (l ++ rest) = l ++ aqkL AqkSt.out rest := by
  intro l
  induction l with
  | nil => intro rest _; rfl
  | cons c t ih =>
    intro rest h
    simp only [List.all_cons, Bool.and_eq_true] at h
    obtain ⟨hc, ht⟩ := h
    simp only [inertAqk, Bool.and_eq_true, Bool.not_eq_true', decide_eq_false_iff_not] at hc
    simp only [List.cons_append, aqkL]
    rw [if_neg hc.1, if_neg (by simp [hc.2])]
    exact congrArg (List.cons c) (ih rest ht)

/-- Pass-through: `addQuotesToKeys` keeps quoted content through verbatim inside a
double-quoted literal. -/
theorem aqk_inq_chunk :
    ∀ (l : List Char) (rest : List Char),
      l.all (fun c => !(c = '\x22')) = true →
      aqkL AqkSt.inq (l ++ rest) = l ++ aqkL AqkSt.inq rest := by
  intro l
  induction l with
  | nil => intro rest _; rfl
  | cons c t ih =>
    intro rest h
    simp only [List.all_cons, Bool.and_eq_true, Bool.not_eq_true', decide_eq_false_iff_not] at h
    obtain ⟨hc, ht⟩ := h
    simp only [List.cons_append, aqkL]
    rw [if_neg hc]
    exact congrArg (List.cons c) (ih rest ht)

/-- Pass-through: `addQuotesToKeys` keeps a whole double-quoted literal through
verbatim when its body contains no quote characters. -/
theorem aqk_str_chunk :
    ∀ (s : List Char) (rest : List Char),
      strContentOk s = true →
      aqkL AqkSt.out ('\x22' :: (s ++ '\x22' :: rest)) =
        '\x22' :: (s ++ '\x22' :: aqkL AqkSt.out rest) := by
  intro s rest h
  have hs : s.all (fun c => !(c = '\x22')) = true := by
    simp only [strContentOk, List.all_eq_true] at h ⊢
    intro c hc
    have := h c hc
    simp only [Bool.and_eq_true, decide_eq_true_eq] at this
    simp [this.1]
  show aqkL AqkSt.out ('\x22' :: (s ++ '\x22' :: rest)) = '\x22' :: (s ++ '\x22' :: aqkL AqkSt.out rest)
  simp only [aqkL, if_pos rfl]
  rw [aqk_inq_chunk s ('\x22' :: rest) hs]
  simp only [aqkL, if_pos rfl]
  simp

/-- Consuming an identifier run in the key-collection state accumulates it
(reversed) into the key. -/
theorem aqk_key_run :
    ∀ (run : List Char) (acc : List Char) (rest : List Char),
      run.all isIdentCh = true →
      aqkL (AqkSt.key acc) (run ++ rest) = aqkL (AqkSt.key (run.reverse ++ acc)) rest := by
  intro run
  induction run with
  | nil => intro acc rest _; simp
  | cons c t ih =>
    intro acc rest h
    simp only [List.all_cons, Bool.and_eq_true] at h
    obtain ⟨hc, ht⟩ := h
    show aqkL (AqkSt.key acc) (c :: (t ++ rest)) = _
    simp only [aqkL, if_pos hc]
    rw [ih (c :: acc) rest ht]
    simp

/-- A safe continuation finishes the key-collection state by emitting the
collected identifier bare and resuming the outside-quotes scan. -/
theorem aqk_key_done :
    ∀ (acc rest : List Char),
      aqkSafeRest rest = true →
      aqkL (AqkSt.key acc) rest = acc.reverse ++ aqkL AqkSt.out rest := by
  intro acc rest h
  cases rest with
  | nil => simp [aqkL]
  | cons c r =>
    simp only [aqkSafeRest, Bool.and_eq_true, Bool.not_eq_true', decide_eq_false_iff_not] at h
    obtain ⟨⟨h1, h2⟩, h3⟩ := h
    have hna : isAlphaStart c = false := by
      cases ha : isAlphaStart c
      · rfl
      · exact absurd (by simp [isIdentCh, isAlphaNum, ha] : isIdentCh c = true) (by simp [h1])
    by_cases hq : c = '\x22'
    · subst hq
      show (if isIdentCh '\x22' = true then _ else _) = _
      rw [if_neg (by decide), if_neg (by decide), if_neg (by decide : ¬('\x22' : Char) = ':'),
        if_pos rfl]
      show _ = acc.reverse ++ aqkL AqkSt.out ('\x22' :: r)
      rw [show aqkL AqkSt.out ('\x22' :: r) = '\x22' :: aqkL AqkSt.inq r from by
        simp [aqkL]]
    · show (if isIdentCh c = true then _ else _) = _
      rw [if_neg (by rw [h1]; decide), if_neg (by rw [h2]; decide), if_neg h3, if_neg hq]
      show _ = acc.reverse ++ aqkL AqkSt.out (c :: r)
      rw [show aqkL AqkSt.out (c :: r) = c :: aqkL AqkSt.out r from by
        simp only [aqkL]
        rw [if_neg hq, if_neg (by rw [hna]; decide)]]

/-- Pass-through: `addQuotesToKeys` keeps a bare identifier run through verbatim when
the continuation starts safely (no identifier character, no space or tab,
no colon). -/
theorem aqk_bare_chunk :
    ∀ (b0 : Char) (brest rest : List Char),
      isAlphaStart b0 = true → ((b0 :: brest).all isIdentCh) = true →
      aqkSafeRest rest = true →
      aqkL AqkSt.out (b0 :: brest ++ rest) = (b0 :: brest) ++ aqkL AqkSt.out rest := by
  intro b0 brest rest h0 hall hsafe
  simp only [List.all_cons, Bool.and_eq_true] at hall
  show aqkL AqkSt.out (b0 :: (brest ++ rest)) = _
  simp only [aqkL, if_neg (alphaStart_ne_dq b0 h0), if_pos h0]
  rw [aqk_key_run brest [b0] rest hall.2]
  rw [aqk_key_done (brest.reverse ++ [b0]) rest hsafe]
  simp

/-- Pointwise implications lift to `List.all`. -/
theorem all_imp {p q : Char → Bool} (h : ∀ c, p c = true → q c = true) :
    ∀ l : List Char, l.all p = true → l.all q = true := by
  intro l hl
  simp only [List.all_eq_true] at hl ⊢
  exact fun c hc => h c (hl c hc)

/-- Dropping a satisfied prefix: `dropWhile` over an append whose left part
satisfies the predicate everywhere continues on the right part. -/
theorem dropWhile_append_all {p : Char → Bool} :
    ∀ l1 l2 : List Char, l1.all p = true →
      List.dropWhile p (l1 ++ l2) = List.dropWhile p l2 := by
  intro l1
  induction l1 with
  | nil => intro l2 _; rfl
  | cons c t ih =>
    intro l2 h
    simp only [List.all_cons, Bool.and_eq_true] at h
    simp only [List.cons_append, List.dropWhile, h.1]
    exact ih l2 h.2

/-- The first character of a rendered value exists and is neither
whitespace nor a closing brace or bracket. -/
theorem renderV_head :
    ∀ v : JVal, wfV v = true →
      ∃ c t, renderV v = c :: t ∧ isWs4 c = false ∧ c ≠ '\x7d' ∧ c ≠ ']' := by
  intro v hv
  cases v with
  | jnull => exact ⟨'n', _, rfl, by decide, by decide, by decide⟩
  | jtrue => exact ⟨'t', _, rfl, by decide, by decide, by decide⟩
  | jfalse => exact ⟨'f', _, rfl, by decide, by decide, by decide⟩
  | jnum s =>
    cases s with
    | nil => exact absurd hv (by simp [wfV, numOk])
    | cons c t =>
      have hc : (isDigitCh c || c = '-') = true := by
        simp only [wfV, numOk, Bool.and_eq_true] at hv
        exact hv.1
      simp only [Bool.or_eq_true, decide_eq_true_eq] at hc
      rcases hc with hd | hm
      · refine ⟨c, t, rfl, ?_, (digit_ne_special c hd).2.2.2.2.1, (digit_ne_special c hd).2.2.2.2.2⟩
        cases hw : isWs4 c
        · rfl
        · have hident := (isWs4_class c hw).2.2.1
          have hident2 : isIdentCh c = true := by
            simp only [isIdentCh, isAlphaNum, Bool.or_eq_true]
            exact Or.inr hd
          rw [hident] at hident2
          exact absurd hident2 (by decide)
      · subst hm
        exact ⟨'-', t, rfl, by decide, by decide, by decide⟩
  | jstr s => exact ⟨'\x22', _, rfl, by decide, by decide, by decide⟩
  | jarrNil ws => exact ⟨'[', _, rfl, by decide, by decide, by decide⟩
  | jarrCons wb v wa t => exact ⟨'[', _, rfl, by decide, by decide, by decide⟩
  | jobjNil ws => exact ⟨'\x7b', _, rfl, by decide, by decide, by decide⟩
  | jobjCons wk k wc wv v wa t => exact ⟨'\x7b', _, rfl, by decide, by decide, by decide⟩

/-- After a structural comma, the lookahead of the trailing-comma pass
never sees a closing brace or bracket: whitespace is skipped and the next
rendered value starts with a non-close character. -/
theorem nextIsClose_ws_render :
    ∀ (wb : List Char) (v : JVal) (rest : List Char),
      wsOk wb = true → wfV v = true →
      nextIsClose (wb ++ (renderV v ++ rest)) = false := by
  intro wb v rest hwb hv
  unfold nextIsClose
  rw [dropWhile_append_all wb _ (all_imp (fun c h => h) wb hwb)]
  obtain ⟨c, t, hrend, hns, hc1, hc2⟩ := renderV_head v hv
  rw [hrend]
  show (match List.dropWhile isWs4 (c :: (t ++ rest)) with
    | [] => false
    | c :: _ => c = '\x7d' || c = ']') = false
  rw [List.dropWhile_cons_of_neg (by simp [hns])]
  simp [hc1, hc2]

/-- Whitespace runs contain no single quote. -/
theorem wsOk_noSQ : ∀ l : List Char, wsOk l = true → (l.all fun c => !(c = '\x27')) = true := by
  intro l h
  exact all_imp (fun c hc => by simpa using (isWs4_class c hc).2.2.2.2.1) l h

/-- Number text contains no single quote. -/
theorem numOk_noSQ : ∀ s : List Char, numOk s = true → (s.all fun c => !(c = '\x27')) = true := by
  intro s h
  cases s with
  | nil => rfl
  | cons c t =>
    simp only [numOk, Bool.and_eq_true] at h
    exact all_imp (fun c hc => by simpa using (numChOk_class c hc).2.2) _ h.2

/-- String bodies contain no single quote. -/
theorem strOk_noSQ :
    ∀ s : List Char, strContentOk s = true → (s.all fun c => !(c = '\x27')) = true := by
  intro s h
  refine all_imp (fun c hc => ?_) s h
  simp only [Bool.and_eq_true, decide_eq_true_eq] at hc
  obtain ⟨⟨_, _⟩, h3⟩ := hc
  simp [h3]

mutual

theorem noSQ_renderV : ∀ v : JVal, wfV v = true → ((renderV v).all fun c => !(c = '\x27')) = true
  | JVal.jnull, _ => by decide
  | JVal.jtrue, _ => by decide
  | JVal.jfalse, _ => by decide
  | JVal.jnum s, h => by
    simp only [wfV] at h
    simpa [renderV] using numOk_noSQ s h
  | JVal.jstr s, h => by
    simp only [wfV] at h
    simp [renderV, List.all_cons, List.all_append, strOk_noSQ s h]
  | JVal.jarrNil ws, h => by
    simp only [wfV] at h
    simp [renderV, List.all_cons, List.all_append, wsOk_noSQ ws h]
  | JVal.jarrCons wb v wa t, h => by
    simp only [wfV, Bool.and_eq_true] at h
    obtain ⟨⟨⟨⟨hwb, hv⟩, hwa⟩, ht⟩, _⟩ := h
    simp [renderV, List.all_cons, List.all_append, wsOk_noSQ wb hwb, noSQ_renderV v hv,
      wsOk_noSQ wa hwa, noSQ_renderA t ht]
  | JVal.jobjNil ws, h => by
    simp only [wfV] at h
    simp [renderV, List.all_cons, List.all_append, wsOk_noSQ ws h]
  | JVal.jobjCons wk k wc wv v wa t, h => by
    simp only [wfV, Bool.and_eq_true] at h
    obtain ⟨⟨⟨⟨⟨⟨⟨hwk, hk⟩, hwc⟩, hwv⟩, hv⟩, hwa⟩, ht⟩, _⟩ := h
    simp [renderV, List.all_cons, List.all_append, wsOk_noSQ wk hwk, strOk_noSQ k hk,
      wsOk_noSQ wc hwc, wsOk_noSQ wv hwv, noSQ_renderV v hv, wsOk_noSQ wa hwa,
      noSQ_renderO t ht]

theorem noSQ_renderA : ∀ t : JATail, wfA t = true → ((renderA t).all fun c => !(c = '\x27')) = true
  | JATail.adone, _ => by decide
  | JATail.amore wb v wa t, h => by
    simp only [wfA, Bool.and_eq_true] at h
    obtain ⟨⟨⟨⟨hwb, hv⟩, hwa⟩, ht⟩, _⟩ := h
    simp [renderA, List.all_cons, List.all_append, wsOk_noSQ wb hwb, noSQ_renderV v hv,
      wsOk_noSQ wa hwa, noSQ_renderA t ht]

theorem noSQ_renderO : ∀ t : JOTail, wfO t = true → ((renderO t).all fun c => !(c = '\x27')) = true
  | JOTail.odone, _ => by decide
  | JOTail.omore wk k wc wv v wa t, h => by
    simp only [wfO, Bool.and_eq_true] at h
    obtain ⟨⟨⟨⟨⟨⟨⟨hwk, hk⟩, hwc⟩, hwv⟩, hv⟩, hwa⟩, ht⟩, _⟩ := h
    simp [renderO, List.all_cons, List.all_append, wsOk_noSQ wk hwk, strOk_noSQ k hk,
      wsOk_noSQ wc hwc, wsOk_noSQ wv hwv, noSQ_renderV v hv, wsOk_noSQ wa hwa,
      noSQ_renderO t ht]

end

/-- Quote unification is the identity on text without single quotes. -/
theorem rsq_of_all :
    ∀ l : List Char, (l.all fun c => !(c = '\x27')) = true → replaceSingleQuotes l = l := by
  intro l h
  induction l with
  | nil => rfl
  | cons c t ih =>
    simp only [List.all_cons, Bool.and_eq_true, Bool.not_eq_true', decide_eq_false_iff_not] at h
    simp only [replaceSingleQuotes, List.map_cons, if_neg h.1]
    have := ih (by simp only [List.all_eq_true] at h ⊢; exact fun c hc => by simp [h.2 c hc])
    simpa [replaceSingleQuotes] using this

/-- Whitespace runs are inert for the trailing-comma scanner. -/
theorem wsOk_inertRtc : ∀ l : List Char, wsOk l = true → l.all inertRtc = true := by
  intro l h
  exact all_imp (fun c hc => (isWs4_class c hc).1) l h

/-- Whitespace runs are inert for the key-quoting scanner. -/
theorem wsOk_inertAqk : ∀ l : List Char, wsOk l = true → l.all inertAqk = true := by
  intro l h
  exact all_imp (fun c hc => (isWs4_class c hc).2.1) l h

/-- Number text is inert for the trailing-comma scanner. -/
theorem numOk_inertRtc : ∀ s : List Char, numOk s = true → s.all inertRtc = true := by
  intro s h
  cases s with
  | nil => rfl
  | cons c t =>
    simp only [numOk, Bool.and_eq_true] at h
    exact all_imp (fun c hc => (numChOk_class c hc).1) _ h.2

/-- Number text is inert for the key-quoting scanner. -/
theorem numOk_inertAqk : ∀ s : List Char, numOk s = true → s.all inertAqk = true := by
  intro s h
  cases s with
  | nil => rfl
  | cons c t =>
    simp only [numOk, Bool.and_eq_true] at h
    exact all_imp (fun c hc => (numChOk_class c hc).2.1) _ h.2

/-- A single inert character passes through the trailing-comma scanner. -/
theorem rtc_cons_inert (c : Char) (h : inertRtc c = true) :
    ∀ (q : Option Char) (X : List Char), rtcL q (c :: X) = c :: rtcL q X := by
  intro q X
  have := rtc_chunk [c] q X (by simp [h])
  simpa using this

/-- The lookahead after a structural comma that precedes an object member
sees the member's opening double quote, not a close. -/
theorem nextIsClose_ws_dq :
    ∀ (wk X : List Char), wsOk wk = true → nextIsClose (wk ++ '\x22' :: X) = false := by
  intro wk X hwk
  unfold nextIsClose
  rw [dropWhile_append_all wk _ (all_imp (fun c hh => hh) wk hwk)]
  rw [List.dropWhile_cons_of_neg (by decide)]
  simp

/-- A comma whose lookahead sees no closing brace or bracket is kept. -/
theorem rtc_comma_keep (X : List Char) (h : nextIsClose X = false) :
    rtcL none (',' :: X) = ',' :: rtcL none X := by
  simp [rtcL, h]

mutual

theorem rtc_renderV : ∀ (v : JVal) (rest : List Char), wfV v = true →
    rtcL none (renderV v ++ rest) = renderV v ++ rtcL none rest
  | JVal.jnull, rest, _ => rtc_chunk ['n', 'u', 'l', 'l'] none rest (by decide)
  | JVal.jtrue, rest, _ => rtc_chunk ['t', 'r', 'u', 'e'] none rest (by decide)
  | JVal.jfalse, rest, _ => rtc_chunk ['f', 'a', 'l', 's', 'e'] none rest (by decide)
  | JVal.jnum s, rest, h => by
    simp only [wfV] at h
    exact rtc_chunk s none rest (numOk_inertRtc s h)
  | JVal.jstr s, rest, h => by
    simp only [wfV] at h
    simp only [renderV, List.cons_append, List.append_assoc, List.singleton_append]
    exact rtc_str_chunk s rest h
  | JVal.jarrNil ws, rest, h => by
    simp only [wfV] at h
    simp only [renderV, List.cons_append, List.append_assoc, List.singleton_append]
    rw [rtc_cons_inert '[' (by decide)]
    rw [rtc_chunk ws none _ (wsOk_inertRtc ws h)]
    rw [rtc_cons_inert ']' (by decide)]
    simp
  | JVal.jarrCons wb v wa t, rest, h => by
    simp only [wfV, Bool.and_eq_true] at h
    obtain ⟨⟨⟨⟨hwb, hv⟩, hwa⟩, ht⟩, _⟩ := h
    simp only [renderV, List.cons_append, List.append_assoc]
    rw [rtc_cons_inert '[' (by decide)]
    rw [rtc_chunk wb none _ (wsOk_inertRtc wb hwb)]
    rw [rtc_renderV v _ hv]
    rw [rtc_chunk wa none _ (wsOk_inertRtc wa hwa)]
    rw [rtc_renderA t rest ht]
  | JVal.jobjNil ws, rest, h => by
    simp only [wfV] at h
    simp only [renderV, List.cons_append, List.append_assoc, List.singleton_append]
    rw [rtc_cons_inert '\x7b' (by decide)]
    rw [rtc_chunk ws none _ (wsOk_inertRtc ws h)]
    rw [rtc_cons_inert '\x7d' (by decide)]
    simp
  | JVal.jobjCons wk k wc wv v wa t, rest, h => by
    simp only [wfV, Bool.and_eq_true] at h
    obtain ⟨⟨⟨⟨⟨⟨⟨hwk, hk⟩, hwc⟩, hwv⟩, hv⟩, hwa⟩, ht⟩, _⟩ := h
    simp only [renderV, List.cons_append, List.append_assoc]
    rw [rtc_cons_inert '\x7b' (by decide)]
    rw [rtc_chunk wk none _ (wsOk_inertRtc wk hwk)]
    rw [rtc_str_chunk k _ hk]
    rw [rtc_chunk wc none _ (wsOk_inertRtc wc hwc)]
    rw [rtc_cons_inert ':' (by decide)]
    rw [rtc_chunk wv none _ (wsOk_inertRtc wv hwv)]
    rw [rtc_renderV v _ hv]
    rw [rtc_chunk wa none _ (wsOk_inertRtc wa hwa)]
    rw [rtc_renderO t rest ht]

theorem rtc_renderA : ∀ (t : JATail) (rest : List Char), wfA t = true →
    rtcL none (renderA t ++ rest) = renderA t ++ rtcL none rest
  | JATail.adone, rest, _ => rtc_cons_inert ']' (by decide) none rest
  | JATail.amore wb v wa t, rest, h => by
    simp only [wfA, Bool.and_eq_true] at h
    obtain ⟨⟨⟨⟨hwb, hv⟩, hwa⟩, ht⟩, _⟩ := h
    simp only [renderA, List.cons_append, List.append_assoc]
    rw [rtc_comma_keep _ (nextIsClose_ws_render wb v _ hwb hv)]
    rw [rtc_chunk wb none _ (wsOk_inertRtc wb hwb)]
    rw [rtc_renderV v _ hv]
    rw [rtc_chunk wa none _ (wsOk_inertRtc wa hwa)]
    rw [rtc_renderA t rest ht]

theorem rtc_renderO : ∀ (t : JOTail) (rest : List Char), wfO t = true →
    rtcL none (renderO t ++ rest) = renderO t ++ rtcL none rest
  | JOTail.odone, rest, _ => rtc_cons_inert '\x7d' (by decide) none rest
  | JOTail.omore wk k wc wv v wa t, rest, h => by
    simp only [wfO, Bool.and_eq_true] at h
    obtain ⟨⟨⟨⟨⟨⟨⟨hwk, hk⟩, hwc⟩, hwv⟩, hv⟩, hwa⟩, ht⟩, _⟩ := h
    simp only [renderO, List.cons_append, List.append_assoc]
    rw [rtc_comma_keep _ (nextIsClose_ws_dq wk _ hwk)]
    rw [rtc_chunk wk none _ (wsOk_inertRtc wk hwk)]
    rw [rtc_str_chunk k _ hk]
    rw [rtc_chunk wc none _ (wsOk_inertRtc wc hwc)]
    rw [rtc_cons_inert ':' (by decide)]
    rw [rtc_chunk wv none _ (wsOk_inertRtc wv hwv)]
    rw [rtc_renderV v _ hv]
    rw [rtc_chunk wa none _ (wsOk_inertRtc wa hwa)]
    rw [rtc_renderO t rest ht]

end

/-- A single inert character passes through the key-quoting scanner. -/
theorem aqk_cons_inert (c : Char) (h : inertAqk c = true) :
    ∀ X : List Char, aqkL AqkSt.out (c :: X) = c :: aqkL AqkSt.out X := by
  intro X
  have := aqk_out_chunk [c] X (by simp [h])
  simpa using this

/-- An array tail starts with a comma or a closing bracket, both of which
terminate an identifier run safely. -/
theorem aqkSafeRest_renderA :
    ∀ (t : JATail) (rest : List Char), aqkSafeRest (renderA t ++ rest) = true := by
  intro t rest
  cases t <;> rfl

/-- An object tail starts with a comma or a closing brace, both of which
terminate an identifier run safely. -/
theorem aqkSafeRest_renderO :
    ∀ (t : JOTail) (rest : List Char), aqkSafeRest (renderO t ++ rest) = true := by
  intro t rest
  cases t <;> rfl

/-- The continuation after a value — its trailing whitespace followed by a
safe tail — terminates an identifier run safely, provided a bare-word
value's whitespace does not start with a space or tab. -/
theorem sideCond (b : Bool) (wa X : List Char) (hwa : wsOk wa = true)
    (hX : aqkSafeRest X = true) (hside : (!b || headNotSpTab wa) = true) :
    b = true → aqkSafeRest (wa ++ X) = true := by
  intro hb
  subst hb
  simp only [Bool.not_true, Bool.false_or] at hside
  cases wa with
  | nil => simpa using hX
  | cons w0 wa' =>
    have hw0 : isWs4 w0 = true := by
      simp only [wsOk, List.all_cons, Bool.and_eq_true] at hwa
      exact hwa.1
    have hsp : isSpaceTab w0 = false := by
      simp only [headNotSpTab, Bool.not_eq_true'] at hside
      exact hside
    show aqkSafeRest (w0 :: (wa' ++ X)) = true
    exact isWs4_not_sptab_safe w0 hw0 hsp

mutual

theorem aqk_renderV : ∀ (v : JVal) (rest : List Char), wfV v = true →
    (bareV v = true → aqkSafeRest rest = true) →
    aqkL AqkSt.out (renderV v ++ rest) = renderV v ++ aqkL AqkSt.out rest
  | JVal.jnull, rest, _, hb =>
    aqk_bare_chunk 'n' ['u', 'l', 'l'] rest (by decide) (by decide) (hb rfl)
  | JVal.jtrue, rest, _, hb =>
    aqk_bare_chunk 't' ['r', 'u', 'e'] rest (by decide) (by decide) (hb rfl)
  | JVal.jfalse, rest, _, hb =>
    aqk_bare_chunk 'f' ['a', 'l', 's', 'e'] rest (by decide) (by decide) (hb rfl)
  | JVal.jnum s, rest, h, _ => by
    simp only [wfV] at h
    exact aqk_out_chunk s rest (numOk_inertAqk s h)
  | JVal.jstr s, rest, h, _ => by
    simp only [wfV] at h
    simp only [renderV, List.cons_append, List.append_assoc, List.singleton_append]
    exact aqk_str_chunk s rest h
  | JVal.jarrNil ws, rest, h, _ => by
    simp only [wfV] at h
    simp only [renderV, List.cons_append, List.append_assoc, List.singleton_append]
    rw [aqk_cons_inert '[' (by decide)]
    rw [aqk_out_chunk ws _ (wsOk_inertAqk ws h)]
    rw [aqk_cons_inert ']' (by decide)]
    simp
  | JVal.jarrCons wb v wa t, rest, h, _ => by
    simp only [wfV, Bool.and_eq_true] at h
    obtain ⟨⟨⟨⟨hwb, hv⟩, hwa⟩, ht⟩, hside⟩ := h
    simp only [renderV, List.cons_append, List.append_assoc]
    rw [aqk_cons_inert '[' (by decide)]
    rw [aqk_out_chunk wb _ (wsOk_inertAqk wb hwb)]
    rw [aqk_renderV v _ hv (sideCond (bareV v) wa _ hwa (aqkSafeRest_renderA t rest) hside)]
    rw [aqk_out_chunk wa _ (wsOk_inertAqk wa hwa)]
    rw [aqk_renderA t rest ht]
  | JVal.jobjNil ws, rest, h, _ => by
    simp only [wfV] at h
    simp only [renderV, List.cons_append, List.append_assoc, List.singleton_append]
    rw [aqk_cons_inert '\x7b' (by decide)]
    rw [aqk_out_chunk ws _ (wsOk_inertAqk ws h)]
    rw [aqk_cons_inert '\x7d' (by decide)]
    simp
  | JVal.jobjCons wk k wc wv v wa t, rest, h, _ => by
    simp only [wfV, Bool.and_eq_true] at h
    obtain ⟨⟨⟨⟨⟨⟨⟨hwk, hk⟩, hwc⟩, hwv⟩, hv⟩, hwa⟩, ht⟩, hside⟩ := h
    simp only [renderV, List.cons_append, List.append_assoc]
    rw [aqk_cons_inert '\x7b' (by decide)]
    rw [aqk_out_chunk wk _ (wsOk_inertAqk wk hwk)]
    rw [aqk_str_chunk k _ hk]
    rw [aqk_out_chunk wc _ (wsOk_inertAqk wc hwc)]
    rw [aqk_cons_inert ':' (by decide)]
    rw [aqk_out_chunk wv _ (wsOk_inertAqk wv hwv)]
    rw [aqk_renderV v _ hv (sideCond (bareV v) wa _ hwa (aqkSafeRest_renderO t rest) hside)]
    rw [aqk_out_chunk wa _ (wsOk_inertAqk wa hwa)]
    rw [aqk_renderO t rest ht]

theorem aqk_renderA : ∀ (t : JATail) (rest : List Char), wfA t = true →
    aqkL AqkSt.out (renderA t ++ rest) = renderA t ++ aqkL AqkSt.out rest
  | JATail.adone, rest, _ => aqk_cons_inert ']' (by decide) rest
  | JATail.amore wb v wa t, rest, h => by
    simp only [wfA, Bool.and_eq_true] at h
    obtain ⟨⟨⟨⟨hwb, hv⟩, hwa⟩, ht⟩, hside⟩ := h
    simp only [renderA, List.cons_append, List.append_assoc]
    rw [aqk_cons_inert ',' (by decide)]
    rw [aqk_out_chunk wb _ (wsOk_inertAqk wb hwb)]
    rw [aqk_renderV v _ hv (sideCond (bareV v) wa _ hwa (aqkSafeRest_renderA t rest) hside)]
    rw [aqk_out_chunk wa _ (wsOk_inertAqk wa hwa)]
    rw [aqk_renderA t rest ht]

theorem aqk_renderO : ∀ (t : JOTail) (rest : List Char), wfO t = true →
    aqkL AqkSt.out (renderO t ++ rest) = renderO t ++ aqkL AqkSt.out rest
  | JOTail.odone, rest, _ => aqk_cons_inert '\x7d' (by decide) rest
  | JOTail.omore wk k wc wv v wa t, rest, h => by
    simp only [wfO, Bool.and_eq_true] at h
    obtain ⟨⟨⟨⟨⟨⟨⟨hwk, hk⟩, hwc⟩, hwv⟩, hv⟩, hwa⟩, ht⟩, hside⟩ := h
    simp only [renderO, List.cons_append, List.append_assoc]
    rw [aqk_cons_inert ',' (by decide)]
    rw [aqk_out_chunk wk _ (wsOk_inertAqk wk hwk)]
    rw [aqk_str_chunk k _ hk]
    rw [aqk_out_chunk wc _ (wsOk_inertAqk wc hwc)]
    rw [aqk_cons_inert ':' (by decide)]
    rw [aqk_out_chunk wv _ (wsOk_inertAqk wv hwv)]
    rw [aqk_renderV v _ hv (sideCond (bareV v) wa _ hwa (aqkSafeRest_renderO t rest) hside)]
    rw [aqk_out_chunk wa _ (wsOk_inertAqk wa hwa)]
    rw [aqk_renderO t rest ht]

end

/-- C5 (counterexample).  Normalization is not the identity on every
strict-JSON literal: `{"a": true }` is accepted by the strict JSON reader
(first conjunct), yet normalization rewrites it to `{"a": true}` — the
key-quoting pass consumes the space after the bare word `true` while
checking for a colon and never re-emits it. -/
theorem normalization_not_identity_on_strict_json :
    (jsonUnmarshal "\x7b\x22a\x22: true \x7d").isSome = true ∧
    normalizeJavaScriptObject "\x7b\x22a\x22: true \x7d" = "\x7b\x22a\x22: true\x7d" ∧
    normalizeJavaScriptObject "\x7b\x22a\x22: true \x7d" ≠ "\x7b\x22a\x22: true \x7d" := by
  refine ⟨by decide, by decide, by decide⟩

/-- C5 (amended).  Normalization is the identity on every strict-JSON
literal that contains no single quotes and no backslash escapes, uses
plain decimal numbers (no exponent notation), and in which no bare
`true`/`false`/`null` is immediately followed by a space or tab: for every
well-formed tree of the concrete-syntax grammar `JVal` (whose renders are
exactly such literals), normalizing the rendered text returns it
byte-for-byte. -/
theorem normalization_identity_on_escape_free_strict_json :
    ∀ v : JVal, wfV v = true →
      normalizeJavaScriptObject ⟨renderV v⟩ = ⟨renderV v⟩ := by
  intro v h
  have h1x : replaceSingleQuotes (renderV v) = renderV v := rsq_of_all _ (noSQ_renderV v h)
  have h2x : rtcL none (renderV v) = renderV v := by
    simpa [show rtcL none [] = ([] : List Char) from rfl] using rtc_renderV v [] h
  have h3x : aqkL AqkSt.out (renderV v) = renderV v := by
    simpa [show aqkL AqkSt.out [] = ([] : List Char) from rfl] using
      aqk_renderV v [] h (fun _ => rfl)
  unfold normalizeJavaScriptObject
  dsimp only
  rw [h1x, h2x]
  split
  · rw [h3x]
  · rfl

/-- C5 witness: the strict literal `{"a": 1}` (quoted key, inner spaces,
no bare-word hazards) is returned unchanged by normalization. -/
theorem normalization_identity_witness :
    normalizeJavaScriptObject "\x7b\x22a\x22: 1\x7d" = "\x7b\x22a\x22: 1\x7d" := by
  have h := normalization_identity_on_escape_free_strict_json
    (JVal.jobjCons [] ['a'] [] [' '] (JVal.jnum ['1']) [] JOTail.odone) (by decide)
  have hr : (⟨renderV (JVal.jobjCons [] ['a'] [] [' '] (JVal.jnum ['1']) [] JOTail.odone)⟩ :
      String) = "\x7b\x22a\x22: 1\x7d" := by decide
  rw [hr] at h
  exact h
